import Mathlib

/-!
Verification of the maze generator and maze walker of `ratatui-fun`.

The Rust sources are shallowly embedded:
* `src/maze.rs`: `UnionFind` (naive pointer-chasing disjoint set), `Tile`,
  `Maze::empty`, `Maze::kruskal`.
* `src/main.rs`: `Direction`, `RelPos` (direction-relative offsets), `Pos`,
  the walker (`robot_scan`, `robot_step`, `on_tick`) of `App`.

Machine integers (`usize`, `isize`) are modelled as `Nat`/`Int`; every Rust
operation that can panic (indexing, `unwrap`, slicing past the end, a loop
that may not terminate) is modelled as an `Option`, `none` standing for the
panic/divergence.  Randomness (`shuffle`, `random_range`) is modelled by
quantifying over the shuffled permutation / the drawn number.
-/

/-- `Tile` from `src/maze.rs`. -/
inductive Tile where
  | Free : Tile
  | Wall : Tile
deriving DecidableEq, Repr, Inhabited

/-- Grid position, `struct Pos` of `src/main.rs` / `struct Pos(usize, usize)`
of `src/maze.rs` (field `x` is the first component). -/
structure Pos where
  x : Nat
  y : Nat
deriving DecidableEq, Repr, Inhabited

/-! ## UnionFind (`src/maze.rs`)

`reps` is the parent-pointer array.  The Rust `rep` loop
`while self.reps[a] != a { a = self.reps[a] }` is modelled with explicit
fuel; `none` models a panic (out-of-range index) or divergence (a pointer
cycle, on which the Rust loop never returns). -/

namespace UnionFind

/-- `UnionFind::new`: `reps = [0, 1, ..., n-1]`. -/
def new (n : Nat) : List Nat := List.range n

/-- Fueled pointer chase of `UnionFind::rep`.  `none` = out-of-range panic
or fuel exhausted. -/
def repFuel (reps : List Nat) : Nat → Nat → Option Nat
  | 0, _ => none
  | f + 1, a =>
    (reps[a]?).bind fun p => if p = a then some a else repFuel reps f p

/-- `UnionFind::rep` with the canonical fuel `reps.length + 1`, which is
enough for every acyclic parent structure (chains visit distinct
elements). -/
def rep (reps : List Nat) (a : Nat) : Option Nat :=
  repFuel reps (reps.length + 1) a

/-- `UnionFind::in_same_set`: `rep(a) == rep(b)`.  `none` if either chase
panics or diverges. -/
def in_same_set (reps : List Nat) (a b : Nat) : Option Bool :=
  (rep reps a).bind fun ra => (rep reps b).map fun rb => decide (ra = rb)

/-- `UnionFind::join`: `reps[rep(b)] = a`. -/
def join (reps : List Nat) (a b : Nat) : Option (List Nat) :=
  (rep reps b).map fun rb => reps.set rb a

end UnionFind

/-! ## Direction and relative positions (`src/main.rs`) -/

/-- `enum Direction`. -/
inductive Direction where
  | N : Direction
  | E : Direction
  | S : Direction
  | W : Direction
deriving DecidableEq, Repr, Inhabited

namespace Direction

/-- `Direction::right`. -/
def right : Direction → Direction
  | N => E
  | E => S
  | S => W
  | W => N

/-- `Direction::left`. -/
def left : Direction → Direction
  | N => W
  | E => N
  | S => E
  | W => S

end Direction

/-- `struct RelPos` — a direction-relative offset (`isize` coordinates). -/
structure RelPos where
  x : Int
  y : Int
  dir : Direction
deriving DecidableEq, Repr

namespace RelPos

/-- `RelPos::reorient_right`: `(x, y, d) ↦ (y, -x, right d)`. -/
def reorient_right (r : RelPos) : RelPos :=
  ⟨r.y, -r.x, r.dir.right⟩

/-- Fueled version of the `while self.dir != new_dir` loop of
`RelPos::reorient`.  Fuel 4 is enough: the carried direction cycles
through all four values in at most 3 steps. -/
def reorientAux : Nat → RelPos → Direction → RelPos
  | 0, r, _ => r
  | f + 1, r, nd => if r.dir = nd then r else reorientAux f r.reorient_right nd

/-- `RelPos::reorient`. -/
def reorient (r : RelPos) (nd : Direction) : RelPos :=
  reorientAux 4 r nd

end RelPos

/-- `impl ops::Add<RelPos> for Pos`: reorient to `N`, add, fail (`None`)
when a coordinate goes negative. -/
def posAdd (p : Pos) (r : RelPos) : Option Pos :=
  let r' := r.reorient Direction.N
  let nx : Int := (p.x : Int) + r'.x
  let ny : Int := (p.y : Int) + r'.y
  if 0 ≤ nx ∧ 0 ≤ ny then some ⟨nx.toNat, ny.toNat⟩ else none

section RotationChecks

example : Direction.N.left.right = Direction.N := rfl
example : RelPos.reorient ⟨-1, 0, .N⟩ .N = ⟨-1, 0, .N⟩ := rfl
example : RelPos.reorient_right ⟨-1, 0, .N⟩ = ⟨0, 1, .E⟩ := rfl
example : RelPos.reorient_right ⟨0, -1, .N⟩ = ⟨-1, 0, .E⟩ := rfl
example : RelPos.reorient_right ⟨-1, 0, .E⟩ = ⟨0, 1, .S⟩ := rfl
example : RelPos.reorient_right ⟨0, -1, .E⟩ = ⟨-1, 0, .S⟩ := rfl
example : RelPos.reorient ⟨5, -3, .S⟩ .E = ⟨3, 5, .E⟩ := rfl
example : posAdd ⟨1, 1⟩ ⟨0, -1, .E⟩ = some ⟨2, 1⟩ := rfl
example : posAdd ⟨0, 0⟩ ⟨-1, -1, .N⟩ = none := rfl

end RotationChecks

/-! ## Maze generation (`src/maze.rs`)

The grid `Maze.tiles : Vec<Vec<Tile>>` is a list of rows, indexed
`tiles[y][x]`.  Out-of-range writes cannot occur on the inputs we reason
about; reads are modelled both as `tileAt?` (panicking/`Option`, used by
the walker) and as the total `tileAtD` (default `Wall`, used to state grid
properties). -/

/-- `fn is_horizontal_edge`: the x coordinate is even. -/
def is_horizontal_edge (p : Pos) : Bool := p.x % 2 = 0

/-- `fn node_to_idx`: `(y / 2) * nx + x / 2` (the `ny` argument is unused
in the source as well). -/
def node_to_idx (p : Pos) (nx _ny : Nat) : Nat := (p.y / 2) * nx + p.x / 2

/-- One odd row of `Maze::empty`: push `Wall, Free` `nx` times, then one
final `Wall`. -/
def oddRow (nx : Nat) : List Tile :=
  (List.range nx).foldl (fun ln _ => ln ++ [Tile.Wall, Tile.Free]) [] ++ [Tile.Wall]

/-- `Maze::empty`: rows `0 .. 2*ny`, even rows all `Wall`, odd rows
alternating `Wall, Free`. -/
def mazeEmpty (nx ny : Nat) : List (List Tile) :=
  (List.range (2 * ny + 1)).map fun line =>
    if line % 2 = 0 then List.replicate (2 * nx + 1) Tile.Wall else oddRow nx

/-- `maze.tiles[e.y][e.x] = Tile::Free`. -/
def setTile (g : List (List Tile)) (e : Pos) : List (List Tile) :=
  g.set e.y ((g.getD e.y []).set e.x Tile.Free)

/-- Panicking read `tiles[p.y][p.x]` (`none` = index out of range). -/
def tileAt? (g : List (List Tile)) (p : Pos) : Option Tile :=
  (g[p.y]?).bind fun row => row[p.x]?

/-- Total read with default `Wall`. -/
def tileAtD (g : List (List Tile)) (p : Pos) : Tile :=
  (g.getD p.y []).getD p.x Tile.Wall

/-- The edge list built by `Maze::kruskal` before shuffling: horizontal
edge slots `(2x, 2y+1)` for `y in 0..ny`, `x in 1..nx`, then vertical edge
slots `(2x+1, 2y)` for `x in 0..nx`, `y in 1..ny`. -/
def edgeList (nx ny : Nat) : List Pos :=
  ((List.range ny).flatMap fun y =>
    (List.range' 1 (nx - 1)).map fun x => Pos.mk (2 * x) (2 * y + 1)) ++
  ((List.range nx).flatMap fun x =>
    (List.range' 1 (ny - 1)).map fun y => Pos.mk (2 * x + 1) (2 * y))

/-- The two cell positions separated by an edge (the `(pos_a, pos_b)` let
in `Maze::kruskal`). -/
def edgeCells (e : Pos) : Pos × Pos :=
  if is_horizontal_edge e then (⟨e.x - 1, e.y⟩, ⟨e.x + 1, e.y⟩)
  else (⟨e.x, e.y - 1⟩, ⟨e.x, e.y + 1⟩)

/-- State of the spanning loop: grid, disjoint set, unused-edge list. -/
structure SpanSt where
  grid : List (List Tile)
  uf : List Nat
  unused : List Pos

/-- One iteration of the `for edge in edges` loop of `Maze::kruskal`. -/
def spanStep (nx ny : Nat) (st : SpanSt) (e : Pos) : Option SpanSt :=
  let cells := edgeCells e
  let ia := node_to_idx cells.1 nx ny
  let ib := node_to_idx cells.2 nx ny
  (UnionFind.in_same_set st.uf ia ib).bind fun same =>
    if same then some ⟨st.grid, st.uf, st.unused ++ [e]⟩
    else (UnionFind.join st.uf ia ib).map fun uf =>
      ⟨setTile st.grid e, uf, st.unused⟩

/-- The whole spanning loop of `Maze::kruskal`, run on the shuffled edge
list `es`. -/
def spanFold (nx ny : Nat) (es : List Pos) : Option SpanSt :=
  es.foldlM (spanStep nx ny) ⟨mazeEmpty nx ny, UnionFind.new (nx * ny), []⟩

/-- `Maze::kruskal`, parameterised by the two shuffles: `p1` is the
shuffled edge list, `p2` the shuffled unused-edge list.  The final loop
iterates over the slice `&unused_edges[..n]` with `n = (nx * ny) / 2`;
slicing past the end panics, modelled by `none` (taking the slice checks
the length before any tile is opened, as in Rust). -/
def kruskal (nx ny : Nat) (p1 p2 : List Pos) : Option (List (List Tile)) :=
  (spanFold nx ny p1).bind fun st =>
    let n := (nx * ny) / 2
    if n ≤ p2.length then some ((p2.take n).foldl setTile st.grid) else none

/-- The unused-edge list produced by the spanning loop (what
`unused_edges` holds just before the second shuffle). -/
def kruskalUnused (nx ny : Nat) (p1 : List Pos) : Option (List Pos) :=
  (spanFold nx ny p1).map SpanSt.unused

section MazeChecks

example : mazeEmpty 1 1 =
    [[Tile.Wall, Tile.Wall, Tile.Wall],
     [Tile.Wall, Tile.Free, Tile.Wall],
     [Tile.Wall, Tile.Wall, Tile.Wall]] := by decide

example : edgeList 2 1 = [⟨2, 1⟩] := by decide
example : edgeList 2 2 = [⟨2, 1⟩, ⟨2, 3⟩, ⟨1, 2⟩, ⟨3, 2⟩] := by decide
example : (edgeList 3 3).length = 12 := by decide

-- nx = 2, ny = 1: one edge, spanning opens it, unused = [],
-- n = 1 > 0 = length: the slice panics.
example : kruskal 2 1 [⟨2, 1⟩] [] = none := by decide

-- nx = 1, ny = 1: no edges at all, n = 0, generation succeeds.
example : kruskal 1 1 [] [] = some (mazeEmpty 1 1) := by decide

-- nx = 3, ny = 3 with identity shuffles: spanning opens 8 edges,
-- 4 unused remain, n = 4 opens all of them: all 12 edges end Free.
example : (kruskalUnused 3 3 (edgeList 3 3)).map List.length = some 4 := by decide
example :
    ((kruskal 3 3 (edgeList 3 3)
        ((kruskalUnused 3 3 (edgeList 3 3)).getD [])).map
      (fun m => (edgeList 3 3).countP (fun e => tileAtD m e = Tile.Free))) =
    some 12 := by decide

end MazeChecks

/-! ## UnionFind theory

`parent` is the total parent-pointer function of a `reps` array.  A state
is `Wf` when parent pointers stay in range and every chase stabilises;
every state reachable by valid joins from `UnionFind.new n` is `Wf`. -/

namespace UnionFind

/-- Total parent function: `reps[a]`, identity out of range. -/
def parent (reps : List Nat) (a : Nat) : Nat := reps.getD a a

/-- Well-formed parent structure: pointers in range, every chase
stabilises. -/
def Wf (reps : List Nat) : Prop :=
  (∀ a, a < reps.length → parent reps a < reps.length) ∧
  (∀ a, a < reps.length → ∃ k, (parent reps)^[k + 1] a = (parent reps)^[k] a)

/-- The root as a total function: `rep` with default `a` itself. -/
def rootD (reps : List Nat) (a : Nat) : Nat := (rep reps a).getD a

theorem parent_out (reps : List Nat) (a : Nat) (h : reps.length ≤ a) :
    parent reps a = a := by
  simp [parent, List.getD_eq_getElem?_getD, List.getElem?_eq_none h]

theorem parent_getD (reps : List Nat) (a : Nat) (h : a < reps.length) :
    reps[a]? = some (parent reps a) := by
  simp [parent, List.getD_eq_getElem?_getD, List.getElem?_eq_getElem h]

theorem iterate_parent_lt (reps : List Nat) (hcl : ∀ a, a < reps.length →
    parent reps a < reps.length) (a : Nat) (ha : a < reps.length) (k : Nat) :
    (parent reps)^[k] a < reps.length := by
  induction k generalizing a with
  | zero => simpa using ha
  | succ k ih =>
    rw [Function.iterate_succ_apply]
    exact ih _ (hcl a ha)

/-- Once a chase stabilises it stays at its value. -/
theorem iterate_stab (p : Nat → Nat) (a : Nat) (k : Nat)
    (h : p^[k + 1] a = p^[k] a) (m : Nat) (hm : k ≤ m) : p^[m] a = p^[k] a := by
  have hfix : p (p^[k] a) = p^[k] a := by
    have h' := h
    rwa [Function.iterate_succ_apply'] at h'
  obtain ⟨j, rfl⟩ := Nat.exists_eq_add_of_le hm
  induction j with
  | zero => rfl
  | succ j ih =>
    have h1 : k + (j + 1) = (k + j) + 1 := by omega
    rw [h1, Function.iterate_succ_apply', ih (by omega), hfix]

theorem stab_unique (p : Nat → Nat) (a : Nat) (k m : Nat)
    (hk : p^[k + 1] a = p^[k] a) (hm : p^[m + 1] a = p^[m] a) :
    p^[k] a = p^[m] a := by
  rcases Nat.le_total k m with h | h
  · exact (iterate_stab p a k hk m h).symm
  · exact iterate_stab p a m hm k h

/-- Soundness of the fueled chase: a `some` answer is a parent-reachable
fixpoint. -/
theorem repFuel_sound (reps : List Nat) (f a r : Nat)
    (h : repFuel reps f a = some r) :
    parent reps r = r ∧ ∃ k, (parent reps)^[k] a = r := by
  induction f generalizing a with
  | zero => simp [repFuel] at h
  | succ f ih =>
    rw [repFuel] at h
    rcases hga : reps[a]? with _ | p
    · rw [hga] at h; exact absurd h (by simp)
    · rw [hga, Option.some_bind] at h
      have hlt : a < reps.length := by
        by_contra hge
        rw [List.getElem?_eq_none (by omega)] at hga
        exact absurd hga (by simp)
      have hpa : p = parent reps a := by
        have := parent_getD reps a hlt
        rw [hga] at this
        exact Option.some.inj this
      by_cases hfix : p = a
      · simp only [hfix, if_pos rfl] at h
        obtain rfl : a = r := Option.some.inj h
        exact ⟨by rw [← hpa, hfix], 0, rfl⟩
      · simp only [if_neg hfix] at h
        obtain ⟨hfr, k, hk⟩ := ih p h
        refine ⟨hfr, k + 1, ?_⟩
        rw [Function.iterate_succ_apply, ← hpa, hk]

/-- The values along a chase up to its first stabilisation point are
pairwise distinct. -/
theorem chain_distinct (p : Nat → Nat) (a k0 : Nat)
    (hstab : p^[k0 + 1] a = p^[k0] a)
    (hmin : ∀ j, j < k0 → p^[j + 1] a ≠ p^[j] a) :
    ∀ i j, i < j → j ≤ k0 → p^[i] a ≠ p^[j] a := by
  intro i j hij hjk heq
  have hd : 1 ≤ j - i := by omega
  -- the chase is periodic from i with period j - i
  have hper : ∀ m, p^[i + m * (j - i)] a = p^[i] a := by
    intro m
    induction m with
    | zero => simp
    | succ m ih =>
      have h1 : i + (m + 1) * (j - i) = (j - i) + (i + m * (j - i)) := by ring
      rw [h1, Function.iterate_add_apply, ih, ← Function.iterate_add_apply]
      have h2 : j - i + i = j := by omega
      rw [h2, ← heq]
  -- far enough out the chase equals the root, so p^[i] a is the root
  have hroot : p^[i] a = p^[k0] a := by
    have h1 : k0 ≤ i + k0 * (j - i) := by
      calc k0 ≤ k0 * (j - i) := Nat.le_mul_of_pos_right k0 (by omega)
        _ ≤ i + k0 * (j - i) := by omega
    calc p^[i] a = p^[i + k0 * (j - i)] a := (hper k0).symm
      _ = p^[k0] a := iterate_stab p a k0 hstab _ h1
  -- hence the chase stabilises already at i < k0, contradiction
  have hfix : p (p^[k0] a) = p^[k0] a := by
    have h' := hstab
    rwa [Function.iterate_succ_apply'] at h'
  have hstep : p^[i + 1] a = p^[i] a := by
    rw [Function.iterate_succ_apply', hroot, hfix]
  exact hmin i (by omega) hstep

/-- The first stabilisation point of a chase from `a < length` is below
`length`. -/
theorem min_stab_lt (reps : List Nat) (hwf : Wf reps) (a : Nat)
    (ha : a < reps.length) (k0 : Nat)
    (hstab : (parent reps)^[k0 + 1] a = (parent reps)^[k0] a)
    (hmin : ∀ j, j < k0 → (parent reps)^[j + 1] a ≠ (parent reps)^[j] a) :
    k0 < reps.length := by
  set p := parent reps with hp
  have hinj : Function.Injective
      (fun i : Fin (k0 + 1) => (⟨p^[i.1] a, iterate_parent_lt reps hwf.1 a ha i.1⟩ :
        Fin reps.length)) := by
    intro i j hij
    simp only [Fin.mk.injEq] at hij
    by_contra hne
    have hne' : i.1 ≠ j.1 := fun h => hne (Fin.ext h)
    rcases Nat.lt_or_ge i.1 j.1 with h | h
    · exact chain_distinct p a k0 hstab hmin i.1 j.1 h (by omega) hij
    · have : j.1 < i.1 := by omega
      exact chain_distinct p a k0 hstab hmin j.1 i.1 this (by omega) hij.symm
  have hcard := Fintype.card_le_of_injective _ hinj
  simpa using hcard

/-- Completeness of the fueled chase: with enough fuel it reaches the
first stabilisation value. -/
theorem repFuel_complete (reps : List Nat)
    (hcl : ∀ a, a < reps.length → parent reps a < reps.length) :
    ∀ f a k0, a < reps.length →
    (parent reps)^[k0 + 1] a = (parent reps)^[k0] a →
    (∀ j, j < k0 → (parent reps)^[j + 1] a ≠ (parent reps)^[j] a) →
    k0 < f → repFuel reps f a = some ((parent reps)^[k0] a) := by
  intro f
  induction f with
  | zero => intro a k0 _ _ _ h; omega
  | succ f ih =>
    intro a k0 ha hstab hmin hk0
    rw [repFuel, parent_getD reps a ha, Option.some_bind]
    by_cases hfix : parent reps a = a
    · rw [if_pos hfix]
      have : k0 = 0 := by
        by_contra h0
        exact hmin 0 (by omega) (by simpa using hfix)
      rw [this]
      simp
    · rw [if_neg hfix]
      have hk0pos : 0 < k0 := by
        by_contra h0
        have : k0 = 0 := by omega
        rw [this] at hstab
        exact hfix (by simpa using hstab)
      have e1 : ∀ m, (parent reps)^[m] (parent reps a) = (parent reps)^[m + 1] a := by
        intro m
        rw [Function.iterate_succ_apply]
      have h2 : k0 - 1 + 1 = k0 := by omega
      have hstab' : (parent reps)^[(k0 - 1) + 1] (parent reps a) =
          (parent reps)^[k0 - 1] (parent reps a) := by
        rw [e1, e1, h2]
        exact hstab
      have hmin' : ∀ j, j < k0 - 1 → (parent reps)^[j + 1] (parent reps a) ≠
          (parent reps)^[j] (parent reps a) := by
        intro j hj hj'
        rw [e1, e1] at hj'
        exact hmin (j + 1) (by omega) hj'
      have hrec := ih (parent reps a) (k0 - 1) (hcl a ha) hstab' hmin' (by omega)
      rw [hrec, e1, h2]

end UnionFind

namespace UnionFind

theorem rep_rootD (reps : List Nat) (hwf : Wf reps) (a : Nat)
    (ha : a < reps.length) : rep reps a = some (rootD reps a) := by
  have hex := hwf.2 a ha
  have hstab := Nat.find_spec hex
  have hmin : ∀ j, j < Nat.find hex →
      (parent reps)^[j + 1] a ≠ (parent reps)^[j] a :=
    fun j hj => Nat.find_min hex hj
  have hlt := min_stab_lt reps hwf a ha (Nat.find hex) hstab hmin
  have hc := repFuel_complete reps hwf.1 (reps.length + 1) a (Nat.find hex)
    ha hstab hmin (by omega)
  rw [rep, hc, rootD, rep, hc, Option.getD_some]

theorem rootD_fix (reps : List Nat) (hwf : Wf reps) (a : Nat)
    (ha : a < reps.length) : parent reps (rootD reps a) = rootD reps a :=
  (repFuel_sound reps _ a _ (rep_rootD reps hwf a ha)).1

theorem rootD_reached (reps : List Nat) (hwf : Wf reps) (a : Nat)
    (ha : a < reps.length) : ∃ k, (parent reps)^[k] a = rootD reps a :=
  (repFuel_sound reps _ a _ (rep_rootD reps hwf a ha)).2

theorem rootD_lt (reps : List Nat) (hwf : Wf reps) (a : Nat)
    (ha : a < reps.length) : rootD reps a < reps.length := by
  obtain ⟨k, hk⟩ := rootD_reached reps hwf a ha
  rw [← hk]
  exact iterate_parent_lt reps hwf.1 a ha k

theorem rep_out (reps : List Nat) (a : Nat) (ha : reps.length ≤ a) :
    rep reps a = none := by
  rw [rep, repFuel, List.getElem?_eq_none ha, Option.none_bind]

theorem rootD_out (reps : List Nat) (a : Nat) (ha : reps.length ≤ a) :
    rootD reps a = a := by
  rw [rootD, rep_out reps a ha, Option.getD_none]

/-- Any parent-reachable fixpoint from `b` is `rootD b`. -/
theorem rootD_eq_of (reps : List Nat) (hwf : Wf reps) (b : Nat)
    (hb : b < reps.length) (m r : Nat) (hm : (parent reps)^[m] b = r)
    (hr : parent reps r = r) : rootD reps b = r := by
  obtain ⟨k, hk⟩ := rootD_reached reps hwf b hb
  have hsk : (parent reps)^[k + 1] b = (parent reps)^[k] b := by
    rw [Function.iterate_succ_apply', hk, rootD_fix reps hwf b hb]
  have hsm : (parent reps)^[m + 1] b = (parent reps)^[m] b := by
    rw [Function.iterate_succ_apply', hm, hr]
  have := stab_unique (parent reps) b k m hsk hsm
  rw [hk, hm] at this
  exact this

theorem rootD_iterate (reps : List Nat) (hwf : Wf reps) (a : Nat)
    (ha : a < reps.length) (j : Nat) :
    rootD reps ((parent reps)^[j] a) = rootD reps a := by
  obtain ⟨k, hk⟩ := rootD_reached reps hwf a ha
  have hsk : (parent reps)^[k + 1] a = (parent reps)^[k] a := by
    rw [Function.iterate_succ_apply', hk, rootD_fix reps hwf a ha]
  have hreach : (parent reps)^[k] ((parent reps)^[j] a) = rootD reps a := by
    rw [← Function.iterate_add_apply]
    rw [iterate_stab (parent reps) a k hsk (k + j) (by omega), hk]
  exact rootD_eq_of reps hwf _ (iterate_parent_lt reps hwf.1 a ha j) k _
    hreach (by rw [rootD_fix reps hwf a ha])

theorem rootD_parent (reps : List Nat) (hwf : Wf reps) (a : Nat)
    (ha : a < reps.length) : rootD reps (parent reps a) = rootD reps a := by
  have := rootD_iterate reps hwf a ha 1
  simpa using this

theorem rootD_of_fix (reps : List Nat) (hwf : Wf reps) (r : Nat)
    (hr : parent reps r = r) : rootD reps r = r := by
  rcases Nat.lt_or_ge r reps.length with h | h
  · exact rootD_eq_of reps hwf r h 0 r rfl hr
  · exact rootD_out reps r h

theorem in_same_set_eq (reps : List Nat) (hwf : Wf reps) (a b : Nat)
    (ha : a < reps.length) (hb : b < reps.length) :
    in_same_set reps a b = some (decide (rootD reps a = rootD reps b)) := by
  rw [in_same_set, rep_rootD reps hwf a ha, rep_rootD reps hwf b hb]
  rfl

theorem parent_new (n a : Nat) : parent (new n) a = a := by
  rcases Nat.lt_or_ge a n with h | h
  · simp [parent, new, List.getD_eq_getElem?_getD, List.getElem?_range h]
  · apply parent_out
    simpa [new] using h

theorem wf_new (n : Nat) : Wf (new n) := by
  constructor
  · intro a ha
    rw [parent_new]
    exact ha
  · intro a ha
    exact ⟨0, by simp [parent_new]⟩

theorem rootD_new (n a : Nat) : rootD (new n) a = a :=
  rootD_of_fix (new n) (wf_new n) a (parent_new n a)

end UnionFind

namespace UnionFind

theorem parent_set (reps : List Nat) (i v y : Nat) (hi : i < reps.length) :
    parent (reps.set i v) y = if y = i then v else parent reps y := by
  by_cases h : y = i
  · subst h
    rw [if_pos rfl]
    rw [parent, List.getD_eq_getElem?_getD, List.getElem?_set_self',
      List.getElem?_eq_getElem hi]
    rfl
  · rw [if_neg h, parent, parent, List.getD_eq_getElem?_getD,
      List.getD_eq_getElem?_getD, List.getElem?_set_ne (fun he => h he.symm)]

/-- A chase from `x` never passes through the root of a different class. -/
theorem chain_avoid (reps : List Nat) (hwf : Wf reps) (b x : Nat)
    (hx : x < reps.length) (hb : b < reps.length)
    (hne : rootD reps x ≠ rootD reps b) :
    ∀ j, (parent reps)^[j] x ≠ rootD reps b := by
  intro j h
  apply hne
  have h1 : rootD reps ((parent reps)^[j] x) = rootD reps x :=
    rootD_iterate reps hwf x hx j
  rw [h, rootD_of_fix reps hwf _ (rootD_fix reps hwf b hb)] at h1
  exact h1.symm

/-- A chase that avoids the overwritten index is unchanged by `set`. -/
theorem iterate_set_eq (reps : List Nat) (i v x m : Nat) (hi : i < reps.length)
    (h : ∀ j, j < m → (parent reps)^[j] x ≠ i) :
    ∀ j, j ≤ m → (parent (reps.set i v))^[j] x = (parent reps)^[j] x := by
  intro j hj
  induction j with
  | zero => rfl
  | succ j ih =>
    rw [Function.iterate_succ_apply', Function.iterate_succ_apply',
      ih (by omega), parent_set reps i v _ hi, if_neg (h j (by omega))]

theorem iterate_set_eq_all (reps : List Nat) (i v x : Nat) (hi : i < reps.length)
    (h : ∀ j, (parent reps)^[j] x ≠ i) :
    ∀ j, (parent (reps.set i v))^[j] x = (parent reps)^[j] x := by
  intro j
  exact iterate_set_eq reps i v x j hi (fun j' _ => h j') j (le_refl j)

/-- The first stabilisation point of a chase computes `rootD`. -/
theorem rootD_min_stab (reps : List Nat) (hwf : Wf reps) (x : Nat)
    (hx : x < reps.length) :
    ∃ k0, (parent reps)^[k0] x = rootD reps x ∧
      (parent reps)^[k0 + 1] x = (parent reps)^[k0] x ∧
      ∀ j, j < k0 → (parent reps)^[j + 1] x ≠ (parent reps)^[j] x := by
  have hex := hwf.2 x hx
  have hstab := Nat.find_spec hex
  have hmin : ∀ j, j < Nat.find hex →
      (parent reps)^[j + 1] x ≠ (parent reps)^[j] x :=
    fun j hj => Nat.find_min hex hj
  refine ⟨Nat.find hex, ?_, hstab, hmin⟩
  have hfix : parent reps ((parent reps)^[Nat.find hex] x) =
      (parent reps)^[Nat.find hex] x := by
    have h' := hstab
    rwa [Function.iterate_succ_apply'] at h'
  exact (rootD_eq_of reps hwf x hx (Nat.find hex) _ rfl hfix).symm

/-- After `join`, every chase reaches the merged root: the class of `b`
is redirected to `a`'s root, other classes are untouched. -/
theorem join_chain (reps : List Nat) (hwf : Wf reps) (a b : Nat)
    (ha : a < reps.length) (hb : b < reps.length)
    (hne : rootD reps a ≠ rootD reps b) (x : Nat) (hx : x < reps.length) :
    ∃ k, (parent (reps.set (rootD reps b) a))^[k] x =
        (if rootD reps x = rootD reps b then rootD reps a else rootD reps x) ∧
      parent (reps.set (rootD reps b) a)
          ((if rootD reps x = rootD reps b then rootD reps a else rootD reps x)) =
        (if rootD reps x = rootD reps b then rootD reps a else rootD reps x) := by
  have hrb : rootD reps b < reps.length := rootD_lt reps hwf b hb
  have hra : rootD reps a < reps.length := rootD_lt reps hwf a ha
  have hrafix : parent reps (rootD reps a) = rootD reps a :=
    rootD_fix reps hwf a ha
  have havoid_a : ∀ j, (parent reps)^[j] a ≠ rootD reps b :=
    chain_avoid reps hwf b a ha hb hne
  have htrans_a : ∀ j, (parent (reps.set (rootD reps b) a))^[j] a =
      (parent reps)^[j] a :=
    iterate_set_eq_all reps _ a a hrb havoid_a
  by_cases hc : rootD reps x = rootD reps b
  · rw [if_pos hc]
    obtain ⟨k0, hval, hstab, hmin⟩ := rootD_min_stab reps hwf x hx
    have hdist : ∀ j, j < k0 → (parent reps)^[j] x ≠ rootD reps b := by
      intro j hj heq
      have := chain_distinct (parent reps) x k0 hstab hmin j k0 hj (le_refl k0)
      rw [heq, hval, hc] at this
      exact this rfl
    have htrans_x := iterate_set_eq reps (rootD reps b) a x k0 hrb hdist
    have hat_k0 : (parent (reps.set (rootD reps b) a))^[k0] x = rootD reps b := by
      rw [htrans_x k0 (le_refl k0), hval, hc]
    have hat_k1 : (parent (reps.set (rootD reps b) a))^[k0 + 1] x = a := by
      rw [Function.iterate_succ_apply', hat_k0,
        parent_set reps _ a _ hrb, if_pos rfl]
    obtain ⟨ka, hka⟩ := rootD_reached reps hwf a ha
    refine ⟨k0 + 1 + ka, ?_, ?_⟩
    · have : k0 + 1 + ka = ka + (k0 + 1) := by omega
      rw [this, Function.iterate_add_apply, hat_k1, htrans_a, hka]
    · rw [parent_set reps _ a _ hrb, if_neg hne]
      exact hrafix
  · rw [if_neg hc]
    obtain ⟨kx, hkx⟩ := rootD_reached reps hwf x hx
    have havoid_x : ∀ j, (parent reps)^[j] x ≠ rootD reps b :=
      chain_avoid reps hwf b x hx hb hc
    have htrans_x := iterate_set_eq_all reps (rootD reps b) a x hrb havoid_x
    refine ⟨kx, by rw [htrans_x, hkx], ?_⟩
    rw [parent_set reps _ a _ hrb, if_neg hc]
    exact rootD_fix reps hwf x hx

theorem wf_join (reps : List Nat) (hwf : Wf reps) (a b : Nat)
    (ha : a < reps.length) (hb : b < reps.length)
    (hne : rootD reps a ≠ rootD reps b) :
    Wf (reps.set (rootD reps b) a) := by
  have hrb : rootD reps b < reps.length := rootD_lt reps hwf b hb
  constructor
  · intro y hy
    rw [List.length_set] at hy ⊢
    rw [parent_set reps _ a y hrb]
    by_cases h : y = rootD reps b
    · rw [if_pos h]; exact ha
    · rw [if_neg h]; exact hwf.1 y hy
  · intro y hy
    rw [List.length_set] at hy
    obtain ⟨k, hk, hfixv⟩ := join_chain reps hwf a b ha hb hne y hy
    refine ⟨k, ?_⟩
    rw [Function.iterate_succ_apply', hk, ← hk]
    rw [hk, hfixv]

/-- The root function after `join`: `b`'s class is absorbed into `a`'s. -/
theorem rootD_join (reps : List Nat) (hwf : Wf reps) (a b : Nat)
    (ha : a < reps.length) (hb : b < reps.length)
    (hne : rootD reps a ≠ rootD reps b) (x : Nat) :
    rootD (reps.set (rootD reps b) a) x =
      if rootD reps x = rootD reps b then rootD reps a else rootD reps x := by
  have hwf1 := wf_join reps hwf a b ha hb hne
  rcases Nat.lt_or_ge x reps.length with hx | hx
  · obtain ⟨k, hk, hfixv⟩ := join_chain reps hwf a b ha hb hne x hx
    exact rootD_eq_of _ hwf1 x (by rwa [List.length_set]) k _ hk hfixv
  · have h1 : rootD (reps.set (rootD reps b) a) x = x :=
      rootD_out _ x (by rwa [List.length_set])
    have h2 : rootD reps x = x := rootD_out reps x hx
    have h3 : rootD reps x ≠ rootD reps b := by
      rw [h2]
      intro h
      have := rootD_lt reps hwf b hb
      omega
    rw [h1, if_neg h3, h2]

theorem join_eq (reps : List Nat) (hwf : Wf reps) (a b : Nat)
    (hb : b < reps.length) :
    join reps a b = some (reps.set (rootD reps b) a) := by
  rw [join, rep_rootD reps hwf b hb]
  rfl

end UnionFind

/-! ## Union history and connectivity -/

/-- Reflexive-symmetric-transitive closure of the pairs joined in `l`
(the "union history" relation of the spec). -/
inductive Conn (l : List (Nat × Nat)) : Nat → Nat → Prop
  | refl (x : Nat) : Conn l x x
  | symm {x y : Nat} : Conn l x y → Conn l y x
  | trans {x y z : Nat} : Conn l x y → Conn l y z → Conn l x z
  | rel {x y : Nat} : (x, y) ∈ l → Conn l x y

theorem Conn.mono {l l' : List (Nat × Nat)} (hsub : ∀ p, p ∈ l → p ∈ l')
    {x y : Nat} (h : Conn l x y) : Conn l' x y := by
  induction h with
  | refl x => exact Conn.refl x
  | symm _ ih => exact ih.symm
  | trans _ _ ih1 ih2 => exact ih1.trans ih2
  | rel hm => exact Conn.rel (hsub _ hm)

theorem conn_nil {x y : Nat} (h : Conn [] x y) : x = y := by
  induction h with
  | refl x => rfl
  | symm _ ih => exact ih.symm
  | trans _ _ ih1 ih2 => exact ih1.trans ih2
  | rel hm => exact absurd hm (by simp)

namespace UnionFind

/-- `ValidSeq reps l reps'` : starting from state `reps`, the joins in `l`
are performed in order, each with in-range arguments on two distinct
classes (exactly the calls `Maze::kruskal` makes), ending in state
`reps'`. -/
inductive ValidSeq : List Nat → List (Nat × Nat) → List Nat → Prop
  | nil (reps : List Nat) : ValidSeq reps [] reps
  | cons {reps reps1 reps' : List Nat} {a b : Nat} {l : List (Nat × Nat)} :
      a < reps.length → b < reps.length →
      in_same_set reps a b = some false →
      join reps a b = some reps1 →
      ValidSeq reps1 l reps' →
      ValidSeq reps ((a, b) :: l) reps'

theorem ValidSeq.length_eq {reps l reps'} (h : ValidSeq reps l reps') :
    reps'.length = reps.length := by
  induction h with
  | nil reps => rfl
  | cons ha hb hsame hjoin htail ih =>
    rename_i reps reps1 reps' a b l
    have : reps1.length = reps.length := by
      rw [join] at hjoin
      rcases hrep : rep reps b with _ | rb
      · rw [hrep] at hjoin; exact absurd hjoin (by simp)
      · rw [hrep] at hjoin
        have : reps.set rb a = reps1 := by
          simpa using hjoin
        rw [← this, List.length_set]
    omega

/-- Main invariant: along a valid join sequence the root function's
kernel is exactly the connectivity of the processed history (appended to
any already-absorbed history `d`). -/
theorem validSeq_rootD {reps l reps'} (h : ValidSeq reps l reps')
    (hwf : Wf reps) :
    ∀ d : List (Nat × Nat),
      (∀ x y, rootD reps x = rootD reps y ↔ Conn d x y) →
      Wf reps' ∧
        ∀ x y, rootD reps' x = rootD reps' y ↔ Conn (d ++ l) x y := by
  induction h with
  | nil reps =>
    intro d hd
    exact ⟨hwf, by simpa using hd⟩
  | cons ha hb hsame hjoin htail ih =>
    rename_i reps reps1 reps' a b l
    intro d hd
    -- the two classes are distinct
    have hchar := in_same_set_eq reps hwf a b ha hb
    rw [hsame] at hchar
    have hne : rootD reps a ≠ rootD reps b := by
      intro h
      have hfd := Option.some.inj hchar
      rw [decide_eq_true h] at hfd
      exact Bool.false_ne_true hfd
    -- identify the joined state
    have hjoin' := join_eq reps hwf a b hb
    rw [hjoin] at hjoin'
    have hreps1 : reps1 = reps.set (rootD reps b) a :=
      Option.some.inj hjoin'
    have hwf1 : Wf reps1 := by
      rw [hreps1]; exact wf_join reps hwf a b ha hb hne
    have hroot1 : ∀ x, rootD reps1 x =
        if rootD reps x = rootD reps b then rootD reps a else rootD reps x := by
      intro x
      rw [hreps1]
      exact rootD_join reps hwf a b ha hb hne x
    -- the new kernel is the old history extended by the pair (a, b)
    have hd1 : ∀ x y, rootD reps1 x = rootD reps1 y ↔
        Conn (d ++ [(a, b)]) x y := by
      intro x y
      constructor
      · intro hxy
        rw [hroot1, hroot1] at hxy
        have hmem : ((a : Nat), b) ∈ d ++ [(a, b)] := by simp
        have hmono : ∀ p, p ∈ d → p ∈ d ++ [(a, b)] := by
          intro p hp; simp [hp]
        by_cases h1 : rootD reps x = rootD reps b <;>
          by_cases h2 : rootD reps y = rootD reps b
        · rw [if_pos h1, if_pos h2] at hxy
          exact Conn.mono hmono ((hd x y).1 (h1.trans h2.symm))
        · rw [if_pos h1, if_neg h2] at hxy
          have cxb : Conn d x b := (hd x b).1 h1
          have cay : Conn d a y := (hd a y).1 hxy
          exact ((Conn.mono hmono cxb).trans
            ((Conn.rel hmem).symm.trans (Conn.mono hmono cay)))
        · rw [if_neg h1, if_pos h2] at hxy
          have cyb : Conn d y b := (hd y b).1 h2
          have cax : Conn d a x := (hd a x).1 hxy.symm
          exact (Conn.mono hmono cax).symm.trans
            ((Conn.rel hmem).trans (Conn.mono hmono cyb).symm)
        · rw [if_neg h1, if_neg h2] at hxy
          exact Conn.mono hmono ((hd x y).1 hxy)
      · intro hconn
        induction hconn with
        | refl z => rfl
        | symm _ ih' => exact ih'.symm
        | trans _ _ ih1 ih2 => exact ih1.trans ih2
        | rel hm =>
          rename_i u v
          rcases List.mem_append.1 hm with hm | hm
          · have := (hd u v).2 (Conn.rel hm)
            rw [hroot1, hroot1, this]
          · have huv : u = a ∧ v = b := by simpa using hm
            obtain ⟨rfl, rfl⟩ := huv
            rw [hroot1, hroot1, if_neg hne, if_pos rfl]
    obtain ⟨hwfFinal, hiff⟩ := ih hwf1 (d ++ [(a, b)]) hd1
    refine ⟨hwfFinal, fun x y => ?_⟩
    rw [hiff]
    have : d ++ [(a, b)] ++ l = d ++ ((a, b) :: l) := by simp
    rw [this]

end UnionFind

/-- An arbitrary (unchecked) sequence of `join` calls, as the Rust API
allows. -/
def runJoins (reps : List Nat) (l : List (Nat × Nat)) : Option (List Nat) :=
  l.foldlM (fun r p => UnionFind.join r p.1 p.2) reps

namespace UnionFind

theorem in_same_set_iff_conn {n : Nat} {l : List (Nat × Nat)}
    {reps' : List Nat} (h : ValidSeq (new n) l reps') {a b : Nat}
    (ha : a < n) (hb : b < n) :
    in_same_set reps' a b = some true ↔ Conn l a b := by
  have hlen : (new n).length = n := by simp [new]
  have hd : ∀ x y, rootD (new n) x = rootD (new n) y ↔ Conn [] x y := by
    intro x y
    rw [rootD_new, rootD_new]
    constructor
    · rintro rfl; exact Conn.refl x
    · exact conn_nil
  obtain ⟨hwf', hiff⟩ := validSeq_rootD h (wf_new n) [] hd
  have hlen' : reps'.length = n := by rw [h.length_eq, hlen]
  rw [in_same_set_eq reps' hwf' a b (by omega) (by omega)]
  simp only [List.nil_append] at hiff
  rw [← hiff a b]
  constructor
  · intro hsome
    have := Option.some.inj hsome
    exact of_decide_eq_true this
  · intro heq
    rw [decide_eq_true heq]

/-- On the cyclic state `[1, 0]` the pointer chase never returns, no
matter the fuel: the Rust `rep` loop diverges. -/
theorem repFuel_cycle_none : ∀ f, repFuel [1, 0] f 0 = none ∧ repFuel [1, 0] f 1 = none := by
  intro f
  induction f with
  | zero => exact ⟨rfl, rfl⟩
  | succ f ih =>
    constructor
    · show ((([1, 0] : List Nat)[0]?).bind fun p =>
        if p = 0 then some 0 else repFuel [1, 0] f p) = none
      simp only [List.getElem?_cons_zero, Option.some_bind]
      rw [if_neg (by omega)]
      exact ih.2
    · show ((([1, 0] : List Nat)[1]?).bind fun p =>
        if p = 1 then some 1 else repFuel [1, 0] f p) = none
      simp only [List.getElem?_cons_succ, List.getElem?_cons_zero, Option.some_bind]
      rw [if_neg (by omega)]
      exact ih.1

end UnionFind

section UnionFindChecks

example : runJoins (UnionFind.new 2) [(0, 1), (1, 0)] = some [1, 0] := by decide
example : UnionFind.in_same_set [1, 0] 0 1 = none := by decide
example : UnionFind.join (UnionFind.new 2) 0 1 = some [0, 0] := by decide
example : UnionFind.in_same_set [0, 0] 0 1 = some true := by decide

end UnionFindChecks

/-! ## Grid characterisation -/

/-- Orthogonal adjacency on grid positions (Manhattan distance 1). -/
def Adjacent (p q : Pos) : Prop :=
  (p.x = q.x ∧ (p.y + 1 = q.y ∨ q.y + 1 = p.y)) ∨
  (p.y = q.y ∧ (p.x + 1 = q.x ∨ q.x + 1 = p.x))

instance (p q : Pos) : Decidable (Adjacent p q) := by
  unfold Adjacent
  infer_instance

/-- One move between two Free tiles. -/
def stepFree (g : List (List Tile)) (p q : Pos) : Prop :=
  tileAtD g p = Tile.Free ∧ tileAtD g q = Tile.Free ∧ Adjacent p q

/-- Reachability through Free tiles. -/
def ReachFree (g : List (List Tile)) : Pos → Pos → Prop :=
  Relation.ReflTransGen (stepFree g)

theorem oddRowCore_getD (nx : Nat) :
    ((List.range nx).foldl (fun ln _ => ln ++ [Tile.Wall, Tile.Free]) []).length
        = 2 * nx ∧
      ∀ i, ((List.range nx).foldl (fun ln _ => ln ++ [Tile.Wall, Tile.Free]) []).getD
          i Tile.Wall = if i < 2 * nx ∧ i % 2 = 1 then Tile.Free else Tile.Wall := by
  induction nx with
  | zero => exact ⟨rfl, fun i => by simp⟩
  | succ n ih =>
    rw [List.range_succ, List.foldl_append]
    refine ⟨?_, ?_⟩
    · simp only [List.foldl_cons, List.foldl_nil, List.length_append, ih.1,
        List.length_cons, List.length_nil]
      omega
    · intro i
      simp only [List.foldl_cons, List.foldl_nil]
      rcases Nat.lt_or_ge i (2 * n) with h | h
      · rw [List.getD_append _ _ _ _ (by rw [ih.1]; exact h), ih.2 i]
        have h1 : (i < 2 * n ∧ i % 2 = 1) ↔ (i < 2 * (n + 1) ∧ i % 2 = 1) := by
          constructor
          · rintro ⟨h2, h3⟩; exact ⟨by omega, h3⟩
          · rintro ⟨h2, h3⟩; exact ⟨h, h3⟩
        rw [if_congr h1 rfl rfl]
      · rw [List.getD_append_right _ _ _ _ (by rw [ih.1]; exact h), ih.1]
        rcases Nat.lt_or_ge i (2 * (n + 1)) with h2 | h2
        · have : i - 2 * n = 0 ∨ i - 2 * n = 1 := by omega
          rcases this with h3 | h3
          · rw [h3]
            have : ¬(i < 2 * (n + 1) ∧ i % 2 = 1) := by omega
            rw [if_neg this]
            rfl
          · rw [h3]
            have : i < 2 * (n + 1) ∧ i % 2 = 1 := by omega
            rw [if_pos this]
            rfl
        · have h3 : 2 ≤ i - 2 * n := by omega
          have : ¬(i < 2 * (n + 1) ∧ i % 2 = 1) := by omega
          rw [if_neg this]
          rw [List.getD_eq_default _ _
            (by simp only [List.length_cons, List.length_nil]; omega)]

theorem oddRow_length (nx : Nat) : (oddRow nx).length = 2 * nx + 1 := by
  rw [oddRow, List.length_append, (oddRowCore_getD nx).1]
  rfl

theorem oddRow_getD (nx i : Nat) :
    (oddRow nx).getD i Tile.Wall =
      if i < 2 * nx + 1 ∧ i % 2 = 1 then Tile.Free else Tile.Wall := by
  rw [oddRow]
  rcases Nat.lt_or_ge i (2 * nx) with h | h
  · rw [List.getD_append _ _ _ _ (by rw [(oddRowCore_getD nx).1]; exact h),
      (oddRowCore_getD nx).2 i]
    have h1 : (i < 2 * nx ∧ i % 2 = 1) ↔ (i < 2 * nx + 1 ∧ i % 2 = 1) := by
      constructor
      · rintro ⟨h2, h3⟩; exact ⟨by omega, h3⟩
      · rintro ⟨h2, h3⟩
        refine ⟨?_, h3⟩
        omega
    rw [if_congr h1 rfl rfl]
  · rw [List.getD_append_right _ _ _ _ (by rw [(oddRowCore_getD nx).1]; exact h),
      (oddRowCore_getD nx).1]
    have hpar : ¬(i < 2 * nx + 1 ∧ i % 2 = 1) := by omega
    rw [if_neg hpar]
    rcases Nat.lt_or_ge (i - 2 * nx) 1 with h2 | h2
    · interval_cases h : i - 2 * nx
      rfl
    · rw [List.getD_eq_default]
      simp only [List.length_cons, List.length_nil]
      omega

theorem replicate_wall_getD (n i : Nat) :
    (List.replicate n Tile.Wall).getD i Tile.Wall = Tile.Wall := by
  rcases Nat.lt_or_ge i n with h | h
  · rw [List.getD_eq_getElem _ _ (by simpa using h)]
    simp
  · rw [List.getD_eq_default]
    simpa using h

theorem mazeEmpty_length (nx ny : Nat) : (mazeEmpty nx ny).length = 2 * ny + 1 := by
  rw [mazeEmpty, List.length_map, List.length_range]

theorem mazeEmpty_rowlen (nx ny : Nat) :
    ∀ row ∈ mazeEmpty nx ny, row.length = 2 * nx + 1 := by
  intro row hrow
  rw [mazeEmpty] at hrow
  obtain ⟨line, _, rfl⟩ := List.mem_map.1 hrow
  by_cases h : line % 2 = 0
  · rw [if_pos h, List.length_replicate]
  · rw [if_neg h, oddRow_length]

/-- Characterisation of `Maze::empty`: tile `(x, y)` is Free exactly when
both coordinates are odd and in range; in particular all cells
`(2i+1, 2j+1)` are Free and everything else (edge slots, border ring,
out of range) is Wall. -/
theorem mazeEmpty_tileAtD (nx ny : Nat) (p : Pos) :
    tileAtD (mazeEmpty nx ny) p =
      if p.x < 2 * nx + 1 ∧ p.y < 2 * ny + 1 ∧ p.x % 2 = 1 ∧ p.y % 2 = 1
      then Tile.Free else Tile.Wall := by
  have hrow : (mazeEmpty nx ny).getD p.y [] =
      if p.y < 2 * ny + 1 then
        (if p.y % 2 = 0 then List.replicate (2 * nx + 1) Tile.Wall else oddRow nx)
      else [] := by
    rw [mazeEmpty]
    rcases Nat.lt_or_ge p.y (2 * ny + 1) with hy | hy
    · rw [if_pos hy, List.getD_eq_getElem _ _ (by simpa using hy),
        List.getElem_map, List.getElem_range]
    · rw [if_neg (by omega), List.getD_eq_default _ _ (by simpa using hy)]
  rw [tileAtD, hrow]
  rcases Nat.lt_or_ge p.y (2 * ny + 1) with hy | hy
  · rw [if_pos hy]
    by_cases hpar : p.y % 2 = 0
    · rw [if_pos hpar, replicate_wall_getD]
      have hno : ¬(p.x < 2 * nx + 1 ∧ p.y < 2 * ny + 1 ∧ p.x % 2 = 1 ∧ p.y % 2 = 1) := by
        omega
      rw [if_neg hno]
    · rw [if_neg hpar, oddRow_getD]
      have hy1 : p.y % 2 = 1 := by omega
      by_cases hx : p.x < 2 * nx + 1 ∧ p.x % 2 = 1
      · rw [if_pos ⟨hx.1, hx.2⟩, if_pos ⟨hx.1, hy, hx.2, hy1⟩]
      · rw [if_neg hx, if_neg (by omega)]
  · rw [if_neg (by omega), if_neg (by omega)]
    simp

/-! ## setTile and edgeList lemmas -/

theorem setTile_length (g : List (List Tile)) (e : Pos) :
    (setTile g e).length = g.length := by
  rw [setTile, List.length_set]

theorem setTile_rowlen (g : List (List Tile)) (e : Pos) (w : Nat)
    (h : ∀ row ∈ g, row.length = w) :
    ∀ row ∈ setTile g e, row.length = w := by
  intro row hrow
  rcases Nat.lt_or_ge e.y g.length with h2 | h2
  · rcases List.mem_or_eq_of_mem_set hrow with h1 | h1
    · exact h row h1
    · rw [h1, List.length_set]
      refine h _ ?_
      rw [List.getD_eq_getElem g [] (by simpa using h2)]
      exact List.getElem_mem _
  · rw [setTile, List.set_eq_of_length_le (by simpa using h2)] at hrow
    exact h row hrow

theorem tileAtD_setTile_ne (g : List (List Tile)) (e p : Pos) (h : p ≠ e) :
    tileAtD (setTile g e) p = tileAtD g p := by
  rw [tileAtD, tileAtD, setTile]
  by_cases hy : p.y = e.y
  · have hx : p.x ≠ e.x := by
      intro hx
      exact h (by cases p; cases e; simp_all)
    rw [hy]
    rcases Nat.lt_or_ge e.y g.length with h2 | h2
    · have hr : (g.set e.y ((g.getD e.y []).set e.x Tile.Free)).getD e.y [] =
          (g.getD e.y []).set e.x Tile.Free := by
        rw [List.getD_eq_getElem _ [] (by simpa using h2)]
        exact List.getElem_set_self (by simpa using h2)
      rw [hr]
      simp only [List.getD_eq_getElem?_getD,
        List.getElem?_set_ne (show e.x ≠ p.x from fun hee => hx hee.symm)]
    · rw [List.set_eq_of_length_le (by simpa using h2)]
  · have hr : (g.set e.y ((g.getD e.y []).set e.x Tile.Free)).getD p.y [] =
        g.getD p.y [] := by
      simp only [List.getD_eq_getElem?_getD,
        List.getElem?_set_ne (show e.y ≠ p.y from fun hee => hy hee.symm)]
    rw [hr]

theorem tileAtD_setTile_self (g : List (List Tile)) (e : Pos)
    (hy : e.y < g.length) (hx : e.x < (g.getD e.y []).length) :
    tileAtD (setTile g e) e = Tile.Free := by
  rw [tileAtD, setTile]
  have hr : (g.set e.y ((g.getD e.y []).set e.x Tile.Free)).getD e.y [] =
      (g.getD e.y []).set e.x Tile.Free := by
    rw [List.getD_eq_getElem _ [] (by simpa using hy)]
    exact List.getElem_set_self (by simpa using hy)
  rw [hr, List.getD_eq_getElem _ _ (by simpa using hx)]
  exact List.getElem_set_self (by simpa using hx)

theorem tileAtD_setTile_free_mono (g : List (List Tile)) (e p : Pos)
    (h : tileAtD g p = Tile.Free) : tileAtD (setTile g e) p = Tile.Free := by
  by_cases hpe : p = e
  · subst hpe
    have hy : p.y < g.length := by
      by_contra hy
      rw [tileAtD, List.getD_eq_default g [] (by simpa using hy)] at h
      simp at h
    have hx : p.x < (g.getD p.y []).length := by
      by_contra hx
      rw [tileAtD, List.getD_eq_default (g.getD p.y []) Tile.Wall
        (by omega)] at h
      simp at h
    exact tileAtD_setTile_self g p hy hx
  · rw [tileAtD_setTile_ne g e p hpe]
    exact h

theorem tileAtD_setTile_cases (g : List (List Tile)) (e p : Pos)
    (h : tileAtD (setTile g e) p = Tile.Free) :
    p = e ∨ tileAtD g p = Tile.Free := by
  by_cases hpe : p = e
  · exact Or.inl hpe
  · rw [tileAtD_setTile_ne g e p hpe] at h
    exact Or.inr h

theorem nodup_flatMap_of (l : List Nat) (f : Nat → List Pos)
    (hl : l.Nodup) (hf : ∀ a ∈ l, (f a).Nodup)
    (hdisj : ∀ a ∈ l, ∀ b ∈ l, a ≠ b → ∀ x ∈ f a, x ∉ f b) :
    (l.flatMap f).Nodup := by
  rw [List.nodup_flatMap]
  refine ⟨hf, List.Pairwise.imp_of_mem ?_ hl⟩
  intro a b ha hb hne
  intro x hxa hxb
  exact hdisj a ha b hb hne x hxa hxb

theorem mem_edgeList (nx ny : Nat) (e : Pos) :
    e ∈ edgeList nx ny ↔
      (∃ x y, 1 ≤ x ∧ x < nx ∧ y < ny ∧ e = ⟨2 * x, 2 * y + 1⟩) ∨
      (∃ x y, x < nx ∧ 1 ≤ y ∧ y < ny ∧ e = ⟨2 * x + 1, 2 * y⟩) := by
  simp only [edgeList, List.mem_append, List.mem_flatMap, List.mem_map,
    List.mem_range, List.mem_range'_1]
  constructor
  · rintro (⟨y, hy, x, ⟨hx1, hx2⟩, rfl⟩ | ⟨x, hx, y, ⟨hy1, hy2⟩, rfl⟩)
    · exact Or.inl ⟨x, y, hx1, by omega, hy, rfl⟩
    · exact Or.inr ⟨x, y, hx, hy1, by omega, rfl⟩
  · rintro (⟨x, y, hx1, hx2, hy, rfl⟩ | ⟨x, y, hx, hy1, hy2, rfl⟩)
    · exact Or.inl ⟨y, hy, x, ⟨hx1, by omega⟩, rfl⟩
    · exact Or.inr ⟨x, hx, y, ⟨hy1, by omega⟩, rfl⟩

theorem edgeList_length (nx ny : Nat) :
    (edgeList nx ny).length = ny * (nx - 1) + nx * (ny - 1) := by
  rw [edgeList, List.length_append, List.length_flatMap, List.length_flatMap]
  have h1 : (List.map (List.length ∘ fun y =>
      (List.range' 1 (nx - 1)).map fun x => Pos.mk (2 * x) (2 * y + 1))
      (List.range ny)).sum = ny * (nx - 1) := by
    have : (List.map (List.length ∘ fun y =>
        (List.range' 1 (nx - 1)).map fun x => Pos.mk (2 * x) (2 * y + 1))
        (List.range ny)) = List.replicate ny (nx - 1) := by
      rw [show (List.length ∘ fun y =>
          (List.range' 1 (nx - 1)).map fun x => Pos.mk (2 * x) (2 * y + 1)) =
          Function.const Nat (nx - 1) from ?_, List.map_const, List.length_range]
      funext y
      simp [List.length_range']
    rw [this, List.sum_replicate, smul_eq_mul]
  have h2 : (List.map (List.length ∘ fun x =>
      (List.range' 1 (ny - 1)).map fun y => Pos.mk (2 * x + 1) (2 * y))
      (List.range nx)).sum = nx * (ny - 1) := by
    have : (List.map (List.length ∘ fun x =>
        (List.range' 1 (ny - 1)).map fun y => Pos.mk (2 * x + 1) (2 * y))
        (List.range nx)) = List.replicate nx (ny - 1) := by
      rw [show (List.length ∘ fun x =>
          (List.range' 1 (ny - 1)).map fun y => Pos.mk (2 * x + 1) (2 * y)) =
          Function.const Nat (ny - 1) from ?_, List.map_const, List.length_range]
      funext x
      simp [List.length_range']
    rw [this, List.sum_replicate, smul_eq_mul]
  rw [h1, h2]

theorem edgeList_nodup (nx ny : Nat) : (edgeList nx ny).Nodup := by
  rw [edgeList]
  apply List.Nodup.append
  · apply nodup_flatMap_of _ _ (List.nodup_range ny)
    · intro y _
      refine List.Nodup.map ?_ (List.nodup_range' 1 (nx - 1))
      intro a b hab
      simp only [Pos.mk.injEq] at hab
      omega
    · intro a _ b _ hab x hxa hxb
      obtain ⟨xa, _, hea⟩ := List.mem_map.1 hxa
      obtain ⟨xb, _, heb⟩ := List.mem_map.1 hxb
      rw [← hea] at heb
      simp only [Pos.mk.injEq] at heb
      omega
  · apply nodup_flatMap_of _ _ (List.nodup_range nx)
    · intro x _
      refine List.Nodup.map ?_ (List.nodup_range' 1 (ny - 1))
      intro a b hab
      simp only [Pos.mk.injEq] at hab
      omega
    · intro a _ b _ hab x hxa hxb
      obtain ⟨ya, _, hea⟩ := List.mem_map.1 hxa
      obtain ⟨yb, _, heb⟩ := List.mem_map.1 hxb
      rw [← hea] at heb
      simp only [Pos.mk.injEq] at heb
      omega
  · intro p hp1 hp2
    obtain ⟨y, _, hm1⟩ := List.mem_flatMap.1 hp1
    obtain ⟨x, _, hex⟩ := List.mem_map.1 hm1
    obtain ⟨x2, _, hm2⟩ := List.mem_flatMap.1 hp2
    obtain ⟨y2, _, hey2⟩ := List.mem_map.1 hm2
    rw [← hex] at hey2
    simp only [Pos.mk.injEq] at hey2
    omega

/-! ## Cells, class counting, edge counting -/

/-- Grid position of the cell in column `i`, row `j`. -/
def cellPos (i j : Nat) : Pos := ⟨2 * i + 1, 2 * j + 1⟩

/-- Linear cell index, as computed by `node_to_idx`. -/
def cellIdx (nx i j : Nat) : Nat := j * nx + i

/-- Cell position of a linear index. -/
def cellPosIdx (nx a : Nat) : Pos := cellPos (a % nx) (a / nx)

/-- Number of distinct classes of a disjoint-set state. -/
def numClasses (reps : List Nat) : Nat :=
  ((Finset.range reps.length).image (UnionFind.rootD reps)).card

/-- Number of interior edge slots currently Free. -/
def countFreeEdges (nx ny : Nat) (g : List (List Tile)) : Nat :=
  (edgeList nx ny).countP (fun e => tileAtD g e = Tile.Free)

theorem node_to_idx_cellPos (nx ny i j : Nat) :
    node_to_idx (cellPos i j) nx ny = cellIdx nx i j := by
  simp only [node_to_idx, cellPos, cellIdx]
  have h1 : (2 * j + 1) / 2 = j := by omega
  have h2 : (2 * i + 1) / 2 = i := by omega
  rw [h1, h2]

theorem cellIdx_lt (nx ny i j : Nat) (hi : i < nx) (hj : j < ny) :
    cellIdx nx i j < nx * ny := by
  calc cellIdx nx i j = j * nx + i := rfl
    _ < (j + 1) * nx := by
        rw [Nat.succ_mul]
        omega
    _ ≤ ny * nx := Nat.mul_le_mul_right nx (by omega)
    _ = nx * ny := Nat.mul_comm ny nx

theorem cellPosIdx_cellIdx (nx i j : Nat) (hi : i < nx) :
    cellPosIdx nx (cellIdx nx i j) = cellPos i j := by
  rw [cellPosIdx, cellIdx]
  have hnx : 0 < nx := by omega
  have h1 : (j * nx + i) % nx = i := by
    rw [Nat.mul_comm j nx, Nat.mul_add_mod]
    exact Nat.mod_eq_of_lt hi
  have h2 : (j * nx + i) / nx = j := by
    rw [Nat.mul_comm j nx, Nat.mul_add_div hnx, Nat.div_eq_of_lt hi]
    omega
  rw [h1, h2]

theorem edge_interior (nx ny : Nat) (e : Pos) (he : e ∈ edgeList nx ny) :
    1 ≤ e.x ∧ e.x ≤ 2 * nx - 1 ∧ 1 ≤ e.y ∧ e.y ≤ 2 * ny - 1 ∧
      (e.x % 2 = 0 ∨ e.y % 2 = 0) := by
  rcases (mem_edgeList nx ny e).1 he with ⟨x, y, hx1, hx2, hy, rfl⟩ |
    ⟨x, y, hx, hy1, hy2, rfl⟩ <;>
    simp only [] <;> omega

theorem numClasses_new (n : Nat) : numClasses (UnionFind.new n) = n := by
  rw [numClasses]
  have h : ((Finset.range (UnionFind.new n).length).image
      (UnionFind.rootD (UnionFind.new n))) = Finset.range n := by
    rw [show (UnionFind.new n).length = n by simp [UnionFind.new]]
    ext v
    simp only [Finset.mem_image, Finset.mem_range]
    constructor
    · rintro ⟨x, hx, rfl⟩
      rwa [UnionFind.rootD_new]
    · intro hv
      exact ⟨v, hv, UnionFind.rootD_new n v⟩
  rw [h, Finset.card_range]

theorem numClasses_join (reps : List Nat) (hwf : UnionFind.Wf reps) (a b : Nat)
    (ha : a < reps.length) (hb : b < reps.length)
    (hne : UnionFind.rootD reps a ≠ UnionFind.rootD reps b) :
    numClasses (reps.set (UnionFind.rootD reps b) a) + 1 = numClasses reps := by
  have himg : ((Finset.range (reps.set (UnionFind.rootD reps b) a).length).image
      (UnionFind.rootD (reps.set (UnionFind.rootD reps b) a))) =
      ((Finset.range reps.length).image (UnionFind.rootD reps)).erase
        (UnionFind.rootD reps b) := by
    rw [List.length_set]
    ext v
    simp only [Finset.mem_image, Finset.mem_erase, Finset.mem_range]
    constructor
    · rintro ⟨x, hx, rfl⟩
      rw [UnionFind.rootD_join reps hwf a b ha hb hne x]
      by_cases hc : UnionFind.rootD reps x = UnionFind.rootD reps b
      · rw [if_pos hc]
        exact ⟨hne, a, ha, rfl⟩
      · rw [if_neg hc]
        exact ⟨hc, x, hx, rfl⟩
    · rintro ⟨hvne, x, hx, rfl⟩
      refine ⟨x, hx, ?_⟩
      rw [UnionFind.rootD_join reps hwf a b ha hb hne x,
        if_neg (fun hc => hvne hc)]
  rw [numClasses, numClasses, himg]
  exact Finset.card_erase_add_one (Finset.mem_image.2 ⟨b, Finset.mem_range.2 hb, rfl⟩)

theorem numClasses_eq_one (reps : List Nat) (hlen : 1 ≤ reps.length)
    (hall : ∀ x y, x < reps.length → y < reps.length →
      UnionFind.rootD reps x = UnionFind.rootD reps y) :
    numClasses reps = 1 := by
  rw [numClasses]
  have h : ((Finset.range reps.length).image (UnionFind.rootD reps)) =
      {UnionFind.rootD reps 0} := by
    ext v
    simp only [Finset.mem_image, Finset.mem_range, Finset.mem_singleton]
    constructor
    · rintro ⟨x, hx, rfl⟩
      exact hall x 0 hx (by omega)
    · rintro rfl
      exact ⟨0, by omega, rfl⟩
  rw [h, Finset.card_singleton]

theorem countFreeEdges_empty (nx ny : Nat) :
    countFreeEdges nx ny (mazeEmpty nx ny) = 0 := by
  rw [countFreeEdges, List.countP_eq_zero]
  intro e he
  obtain ⟨_, _, _, _, hpar⟩ := edge_interior nx ny e he
  simp only [decide_eq_true_eq]
  rw [mazeEmpty_tileAtD]
  intro hcon
  split at hcon
  · rename_i hcond
    omega
  · exact absurd hcon (by simp)

theorem countFreeEdges_setTile (nx ny : Nat) (g : List (List Tile)) (e : Pos)
    (he : e ∈ edgeList nx ny) (hwall : tileAtD g e = Tile.Wall)
    (hglen : g.length = 2 * ny + 1)
    (hrow : ∀ row ∈ g, row.length = 2 * nx + 1) :
    countFreeEdges nx ny (setTile g e) = countFreeEdges nx ny g + 1 := by
  obtain ⟨hx1, hx2, hy1, hy2, _⟩ := edge_interior nx ny e he
  have hylt : e.y < g.length := by omega
  have hrowlen : (g.getD e.y []).length = 2 * nx + 1 := by
    refine hrow _ ?_
    rw [List.getD_eq_getElem g [] (by simpa using hylt)]
    exact List.getElem_mem _
  have hself : tileAtD (setTile g e) e = Tile.Free :=
    tileAtD_setTile_self g e hylt (by omega)
  obtain ⟨l1, l2, hsplit⟩ := List.append_of_mem he
  have hnodup := edgeList_nodup nx ny
  rw [hsplit] at hnodup
  have he1 : e ∉ l1 := by
    intro hm
    rcases List.nodup_append.1 hnodup with ⟨_, _, hdisj⟩
    exact hdisj hm (by simp)
  have he2 : e ∉ l2 := by
    rcases List.nodup_append.1 hnodup with ⟨_, hn2, _⟩
    exact (List.nodup_cons.1 hn2).1
  rw [countFreeEdges, countFreeEdges, hsplit]
  rw [List.countP_append, List.countP_append, List.countP_cons, List.countP_cons]
  have hc1 : l1.countP (fun e' => decide (tileAtD (setTile g e) e' = Tile.Free)) =
      l1.countP (fun e' => decide (tileAtD g e' = Tile.Free)) := by
    apply List.countP_congr
    intro a ha
    rw [tileAtD_setTile_ne g e a (fun hae => he1 (hae ▸ ha))]
  have hc2 : l2.countP (fun e' => decide (tileAtD (setTile g e) e' = Tile.Free)) =
      l2.countP (fun e' => decide (tileAtD g e' = Tile.Free)) := by
    apply List.countP_congr
    intro a ha
    rw [tileAtD_setTile_ne g e a (fun hae => he2 (hae ▸ ha))]
  rw [hc1, hc2, hself, hwall]
  simp
  omega

theorem adjacent_symm {p q : Pos} (h : Adjacent p q) : Adjacent q p := by
  rcases h with ⟨h1, h2⟩ | ⟨h1, h2⟩
  · exact Or.inl ⟨h1.symm, h2.symm⟩
  · exact Or.inr ⟨h1.symm, h2.symm⟩

theorem stepFree_symm {g : List (List Tile)} {p q : Pos} (h : stepFree g p q) :
    stepFree g q p :=
  ⟨h.2.1, h.1, adjacent_symm h.2.2⟩

theorem reachFree_symm {g : List (List Tile)} {p q : Pos}
    (h : ReachFree g p q) : ReachFree g q p := by
  induction h with
  | refl => exact Relation.ReflTransGen.refl
  | tail _ hstep ih =>
    exact Relation.ReflTransGen.head (stepFree_symm hstep) ih

theorem reachFree_mono {g g' : List (List Tile)}
    (hmono : ∀ p, tileAtD g p = Tile.Free → tileAtD g' p = Tile.Free)
    {p q : Pos} (h : ReachFree g p q) : ReachFree g' p q := by
  induction h with
  | refl => exact Relation.ReflTransGen.refl
  | tail _ hstep ih =>
    exact Relation.ReflTransGen.tail ih
      ⟨hmono _ hstep.1, hmono _ hstep.2.1, hstep.2.2⟩

/-- Decomposition of an edge slot into its two adjacent cells. -/
theorem edge_spec (nx ny : Nat) (e : Pos) (he : e ∈ edgeList nx ny) :
    ∃ i j i' j', i < nx ∧ j < ny ∧ i' < nx ∧ j' < ny ∧
      edgeCells e = (cellPos i j, cellPos i' j') ∧
      Adjacent (cellPos i j) e ∧ Adjacent e (cellPos i' j') := by
  rcases (mem_edgeList nx ny e).1 he with ⟨x, y, hx1, hx2, hy, rfl⟩ |
    ⟨x, y, hx, hy1, hy2, rfl⟩
  · refine ⟨x - 1, y, x, y, by omega, hy, hx2, hy, ?_, ?_, ?_⟩
    · have hh : is_horizontal_edge ⟨2 * x, 2 * y + 1⟩ = true := by
        simp [is_horizontal_edge]
      rw [edgeCells, if_pos hh]
      simp only [cellPos, Prod.mk.injEq, Pos.mk.injEq, and_true, true_and] <;> omega
    · simp only [Adjacent, cellPos, and_true, true_and, or_true, true_or] <;> omega
    · simp only [Adjacent, cellPos, and_true, true_and, or_true, true_or] <;> omega
  · refine ⟨x, y - 1, x, y, hx, by omega, hx, hy2, ?_, ?_, ?_⟩
    · have hh : ¬ is_horizontal_edge ⟨2 * x + 1, 2 * y⟩ = true := by
        simp [is_horizontal_edge]
        omega
      rw [edgeCells, if_neg hh]
      simp only [cellPos, Prod.mk.injEq, Pos.mk.injEq, and_true, true_and] <;> omega
    · simp only [Adjacent, cellPos, and_true, true_and, or_true, true_or] <;> omega
    · simp only [Adjacent, cellPos, and_true, true_and, or_true, true_or] <;> omega

/-- Invariant of the spanning loop after `k` edges have been processed. -/
structure SpanInv (nx ny k : Nat) (st : SpanSt) : Prop where
  wf : UnionFind.Wf st.uf
  uflen : st.uf.length = nx * ny
  glen : st.grid.length = 2 * ny + 1
  rowlen : ∀ row ∈ st.grid, row.length = 2 * nx + 1
  cellsFree : ∀ i j, i < nx → j < ny → tileAtD st.grid (cellPos i j) = Tile.Free
  freeInterior : ∀ p, tileAtD st.grid p = Tile.Free →
    1 ≤ p.x ∧ p.x ≤ 2 * nx - 1 ∧ 1 ≤ p.y ∧ p.y ≤ 2 * ny - 1
  freeConn : ∀ a b, a < nx * ny → b < nx * ny →
    UnionFind.rootD st.uf a = UnionFind.rootD st.uf b →
    ReachFree st.grid (cellPosIdx nx a) (cellPosIdx nx b)
  classCount : numClasses st.uf + (k - st.unused.length) = nx * ny
  unusedLe : st.unused.length ≤ k
  freeCount : countFreeEdges nx ny st.grid = k - st.unused.length
  unusedWall : ∀ e ∈ st.unused, tileAtD st.grid e = Tile.Wall
  unusedMem : ∀ e ∈ st.unused, e ∈ edgeList nx ny
  unusedNodup : st.unused.Nodup

theorem spanInv_init (nx ny : Nat) :
    SpanInv nx ny 0 ⟨mazeEmpty nx ny, UnionFind.new (nx * ny), []⟩ := by
  refine ⟨UnionFind.wf_new _, by simp [UnionFind.new], mazeEmpty_length nx ny,
    mazeEmpty_rowlen nx ny, ?_, ?_, ?_, ?_, ?_, ?_, ?_, ?_, ?_⟩
  · intro i j hi hj
    rw [mazeEmpty_tileAtD]
    rw [if_pos (by simp only [cellPos]; omega)]
  · intro p hp
    rw [mazeEmpty_tileAtD] at hp
    split at hp
    · rename_i hcond
      omega
    · exact absurd hp (by simp)
  · intro a b _ _ hab
    rw [UnionFind.rootD_new, UnionFind.rootD_new] at hab
    rw [hab]
    exact Relation.ReflTransGen.refl
  · simp [numClasses_new]
  · simp
  · simpa using countFreeEdges_empty nx ny
  · intro e he
    exact absurd he (by simp)
  · intro e he
    exact absurd he (by simp)
  · exact List.nodup_nil

/-- Master induction along the spanning loop. -/
theorem spanFold_go (nx ny : Nat) :
    ∀ (remaining : List Pos) (st : SpanSt) (k : Nat),
      SpanInv nx ny k st →
      (∀ e ∈ remaining, e ∈ edgeList nx ny) →
      remaining.Nodup →
      (∀ e ∈ remaining, tileAtD st.grid e = Tile.Wall) →
      (∀ e ∈ remaining, e ∉ st.unused) →
      ∃ st', List.foldlM (spanStep nx ny) st remaining = some st' ∧
        SpanInv nx ny (k + remaining.length) st' ∧
        (∀ x y, x < nx * ny → y < nx * ny →
          UnionFind.rootD st.uf x = UnionFind.rootD st.uf y →
          UnionFind.rootD st'.uf x = UnionFind.rootD st'.uf y) ∧
        (∀ e ∈ remaining,
          UnionFind.rootD st'.uf (node_to_idx (edgeCells e).1 nx ny) =
            UnionFind.rootD st'.uf (node_to_idx (edgeCells e).2 nx ny)) := by
  intro remaining
  induction remaining with
  | nil =>
    intro st k hinv _ _ _ _
    exact ⟨st, rfl, by simpa using hinv, fun x y _ _ h => h, by simp⟩
  | cons e rest ih =>
    intro st k hinv hmem hnodup hwall hdisj
    have heE : e ∈ edgeList nx ny := hmem e (by simp)
    obtain ⟨i, j, i', j', hi, hj, hi', hj', hcells, hadj1, hadj2⟩ :=
      edge_spec nx ny e heE
    have hIdx1 : node_to_idx (edgeCells e).1 nx ny = cellIdx nx i j := by
      rw [hcells]
      exact node_to_idx_cellPos nx ny i j
    have hIdx2 : node_to_idx (edgeCells e).2 nx ny = cellIdx nx i' j' := by
      rw [hcells]
      exact node_to_idx_cellPos nx ny i' j'
    have hialt : node_to_idx (edgeCells e).1 nx ny < nx * ny := by
      rw [hIdx1]
      exact cellIdx_lt nx ny i j hi hj
    have hiblt : node_to_idx (edgeCells e).2 nx ny < nx * ny := by
      rw [hIdx2]
      exact cellIdx_lt nx ny i' j' hi' hj'
    have hialen : node_to_idx (edgeCells e).1 nx ny < st.uf.length := by
      rw [hinv.uflen]
      exact hialt
    have hiblen : node_to_idx (edgeCells e).2 nx ny < st.uf.length := by
      rw [hinv.uflen]
      exact hiblt
    have hsame := UnionFind.in_same_set_eq st.uf hinv.wf _ _ hialen hiblen
    obtain ⟨hex1, hex2, hey1, hey2, hepar⟩ := edge_interior nx ny e heE
    have heylt : e.y < st.grid.length := by
      rw [hinv.glen]
      omega
    have herowlen : (st.grid.getD e.y []).length = 2 * nx + 1 := by
      refine hinv.rowlen _ ?_
      rw [List.getD_eq_getElem st.grid [] (by simpa using heylt)]
      exact List.getElem_mem _
    have hrestmem : ∀ e' ∈ rest, e' ∈ edgeList nx ny :=
      fun e' he' => hmem e' (by simp [he'])
    have hrestnodup : rest.Nodup := (List.nodup_cons.1 hnodup).2
    have henotrest : e ∉ rest := (List.nodup_cons.1 hnodup).1
    have henotunused : e ∉ st.unused := hdisj e (by simp)
    by_cases hc : UnionFind.rootD st.uf (node_to_idx (edgeCells e).1 nx ny) =
        UnionFind.rootD st.uf (node_to_idx (edgeCells e).2 nx ny)
    · -- the two cells are already connected: record the edge as unused
      have hstep : spanStep nx ny st e =
          some ⟨st.grid, st.uf, st.unused ++ [e]⟩ := by
        simp only [spanStep]
        rw [hsame, Option.some_bind, decide_eq_true hc, if_pos rfl]
      have hinv1 : SpanInv nx ny (k + 1) ⟨st.grid, st.uf, st.unused ++ [e]⟩ := by
        refine ⟨hinv.wf, hinv.uflen, hinv.glen, hinv.rowlen, hinv.cellsFree,
          hinv.freeInterior, hinv.freeConn, ?_, ?_, ?_, ?_, ?_, ?_⟩
        · have h1 := hinv.classCount
          have h2 := hinv.unusedLe
          simp only [List.length_append, List.length_cons, List.length_nil]
          omega
        · have h2 := hinv.unusedLe
          simp only [List.length_append, List.length_cons, List.length_nil]
          omega
        · have h1 := hinv.freeCount
          have h2 := hinv.unusedLe
          simp only [List.length_append, List.length_cons, List.length_nil]
          omega
        · intro e' he'
          rcases List.mem_append.1 he' with h | h
          · exact hinv.unusedWall e' h
          · have : e' = e := by simpa using h
            subst this
            exact hwall e' (by simp)
        · intro e' he'
          rcases List.mem_append.1 he' with h | h
          · exact hinv.unusedMem e' h
          · have : e' = e := by simpa using h
            subst this
            exact heE
        · refine List.Nodup.append hinv.unusedNodup (List.nodup_singleton e) ?_
          intro a hau hae
          have : a = e := by simpa using hae
          subst this
          exact henotunused hau
      obtain ⟨st', hfold, hinv', hmono', hedges'⟩ := ih ⟨st.grid, st.uf, st.unused ++ [e]⟩ (k + 1) hinv1
        hrestmem hrestnodup
        (fun e' he' => hwall e' (by simp [he']))
        (fun e' he' hm => by
          rcases List.mem_append.1 hm with h | h
          · exact hdisj e' (by simp [he']) h
          · have : e' = e := by simpa using h
            subst this
            exact henotrest he')
      refine ⟨st', ?_, ?_, ?_, ?_⟩
      · simp only [List.foldlM_cons, hstep, Option.some_bind, Option.bind_eq_bind]
        exact hfold
      · have harith : k + (e :: rest).length = (k + 1) + rest.length := by
          simp only [List.length_cons]
          omega
        rw [harith]
        exact hinv'
      · intro x y hx hy hxy
        exact hmono' x y hx hy hxy
      · intro e' he'
        rcases List.mem_cons.1 he' with h | h
        · subst h
          exact hmono' _ _ hialt hiblt hc
        · exact hedges' e' h
    · -- distinct classes: join and open the edge
      have hjoin := UnionFind.join_eq st.uf hinv.wf
        (node_to_idx (edgeCells e).1 nx ny) (node_to_idx (edgeCells e).2 nx ny) hiblen
      have hstep : spanStep nx ny st e =
          some ⟨setTile st.grid e,
            st.uf.set (UnionFind.rootD st.uf (node_to_idx (edgeCells e).2 nx ny))
              (node_to_idx (edgeCells e).1 nx ny), st.unused⟩ := by
        simp only [spanStep]
        rw [hsame, Option.some_bind, decide_eq_false hc, if_neg (by simp), hjoin]
        rfl
      have hwf1 := UnionFind.wf_join st.uf hinv.wf _ _ hialen hiblen hc
      have hroot1 := UnionFind.rootD_join st.uf hinv.wf _ _ hialen hiblen hc
      have hself : tileAtD (setTile st.grid e) e = Tile.Free :=
        tileAtD_setTile_self st.grid e heylt (by omega)
      have hgm : ∀ p, tileAtD st.grid p = Tile.Free →
          tileAtD (setTile st.grid e) p = Tile.Free :=
        fun p hp => tileAtD_setTile_free_mono st.grid e p hp
      have hreach_edge : ReachFree (setTile st.grid e) (cellPos i j) (cellPos i' j') := by
        have h1 : stepFree (setTile st.grid e) (cellPos i j) e :=
          ⟨hgm _ (hinv.cellsFree i j hi hj), hself, hadj1⟩
        have h2 : stepFree (setTile st.grid e) e (cellPos i' j') :=
          ⟨hself, hgm _ (hinv.cellsFree i' j' hi' hj'), hadj2⟩
        exact Relation.ReflTransGen.head h1 (Relation.ReflTransGen.single h2)
      have hcp1 : cellPosIdx nx (node_to_idx (edgeCells e).1 nx ny) = cellPos i j := by
        rw [hIdx1]
        exact cellPosIdx_cellIdx nx i j hi
      have hcp2 : cellPosIdx nx (node_to_idx (edgeCells e).2 nx ny) = cellPos i' j' := by
        rw [hIdx2]
        exact cellPosIdx_cellIdx nx i' j' hi'
      have hinv1 : SpanInv nx ny (k + 1)
          ⟨setTile st.grid e,
            st.uf.set (UnionFind.rootD st.uf (node_to_idx (edgeCells e).2 nx ny))
              (node_to_idx (edgeCells e).1 nx ny), st.unused⟩ := by
        refine ⟨hwf1, ?_, ?_, ?_, ?_, ?_, ?_, ?_, ?_, ?_, ?_, ?_, ?_⟩
        · simp only [List.length_set]
          exact hinv.uflen
        · simp only [setTile_length]
          exact hinv.glen
        · exact setTile_rowlen st.grid e _ hinv.rowlen
        · intro a b ha hb
          exact hgm _ (hinv.cellsFree a b ha hb)
        · intro p hp
          rcases tileAtD_setTile_cases st.grid e p hp with h | h
          · subst h
            exact ⟨hex1, hex2, hey1, hey2⟩
          · exact hinv.freeInterior p h
        · intro a b halt hblt hab1
          simp only [] at hab1
          rw [hroot1 a, hroot1 b] at hab1
          by_cases h1 : UnionFind.rootD st.uf a =
              UnionFind.rootD st.uf (node_to_idx (edgeCells e).2 nx ny) <;>
            by_cases h2 : UnionFind.rootD st.uf b =
              UnionFind.rootD st.uf (node_to_idx (edgeCells e).2 nx ny)
          · exact reachFree_mono hgm
              (hinv.freeConn a b halt hblt (h1.trans h2.symm))
          · rw [if_pos h1, if_neg h2] at hab1
            have hr1 : ReachFree (setTile st.grid e) (cellPosIdx nx a) (cellPos i' j') := by
              rw [← hcp2]
              exact reachFree_mono hgm (hinv.freeConn a _ halt hiblt h1)
            have hr2 : ReachFree (setTile st.grid e) (cellPos i j) (cellPosIdx nx b) := by
              rw [← hcp1]
              exact reachFree_mono hgm (hinv.freeConn _ b hialt hblt hab1)
            exact (hr1.trans (reachFree_symm hreach_edge)).trans hr2
          · rw [if_neg h1, if_pos h2] at hab1
            have hr1 : ReachFree (setTile st.grid e) (cellPosIdx nx a) (cellPos i j) := by
              rw [← hcp1]
              exact reachFree_mono hgm (hinv.freeConn a _ halt hialt hab1)
            have hr2 : ReachFree (setTile st.grid e) (cellPos i' j') (cellPosIdx nx b) := by
              rw [← hcp2]
              exact reachFree_mono hgm (hinv.freeConn _ b hiblt hblt h2.symm)
            exact (hr1.trans hreach_edge).trans hr2
          · rw [if_neg h1, if_neg h2] at hab1
            exact reachFree_mono hgm (hinv.freeConn a b halt hblt hab1)
        · have hdec := numClasses_join st.uf hinv.wf _ _ hialen hiblen hc
          have h1 := hinv.classCount
          have h2 := hinv.unusedLe
          simp only []
          omega
        · have h2 := hinv.unusedLe
          simp only []
          omega
        · have h1 := hinv.freeCount
          have h2 := hinv.unusedLe
          have h3 := countFreeEdges_setTile nx ny st.grid e heE (hwall e (by simp))
            hinv.glen hinv.rowlen
          simp only []
          omega
        · intro e' he'
          have hne' : e' ≠ e := fun heq => henotunused (heq ▸ he')
          simp only []
          rw [tileAtD_setTile_ne st.grid e e' hne']
          exact hinv.unusedWall e' he'
        · exact hinv.unusedMem
        · exact hinv.unusedNodup
      obtain ⟨st', hfold, hinv', hmono', hedges'⟩ := ih _ (k + 1) hinv1
        hrestmem hrestnodup
        (fun e' he' => by
          have hne' : e' ≠ e := fun heq => henotrest (heq ▸ he')
          simp only []
          rw [tileAtD_setTile_ne st.grid e e' hne']
          exact hwall e' (by simp [he']))
        (fun e' he' hm => hdisj e' (by simp [he']) hm)
      have hstepmono : ∀ x y, x < nx * ny → y < nx * ny →
          UnionFind.rootD st.uf x = UnionFind.rootD st.uf y →
          UnionFind.rootD (st.uf.set
            (UnionFind.rootD st.uf (node_to_idx (edgeCells e).2 nx ny))
            (node_to_idx (edgeCells e).1 nx ny)) x =
          UnionFind.rootD (st.uf.set
            (UnionFind.rootD st.uf (node_to_idx (edgeCells e).2 nx ny))
            (node_to_idx (edgeCells e).1 nx ny)) y := by
        intro x y _ _ hxy
        rw [hroot1 x, hroot1 y, hxy]
      refine ⟨st', ?_, ?_, ?_, ?_⟩
      · simp only [List.foldlM_cons, hstep, Option.some_bind, Option.bind_eq_bind]
        exact hfold
      · have harith : k + (e :: rest).length = (k + 1) + rest.length := by
          simp only [List.length_cons]
          omega
        rw [harith]
        exact hinv'
      · intro x y hx hy hxy
        exact hmono' x y hx hy (hstepmono x y hx hy hxy)
      · intro e' he'
        rcases List.mem_cons.1 he' with h | h
        · subst h
          refine hmono' _ _ hialt hiblt ?_
          rw [hroot1, hroot1, if_neg hc, if_pos rfl]
        · exact hedges' e' h

/-! ## Phase-2 (reopening) fold lemmas -/

theorem foldl_setTile_free_mono (l : List Pos) :
    ∀ (g : List (List Tile)) (p : Pos), tileAtD g p = Tile.Free →
      tileAtD (l.foldl setTile g) p = Tile.Free := by
  induction l with
  | nil => intro g p hp; exact hp
  | cons e rest ih =>
    intro g p hp
    exact ih (setTile g e) p (tileAtD_setTile_free_mono g e p hp)

theorem foldl_setTile_cases (l : List Pos) :
    ∀ (g : List (List Tile)) (p : Pos),
      tileAtD (l.foldl setTile g) p = Tile.Free →
      p ∈ l ∨ tileAtD g p = Tile.Free := by
  induction l with
  | nil => intro g p hp; exact Or.inr hp
  | cons e rest ih =>
    intro g p hp
    rcases ih (setTile g e) p hp with h | h
    · exact Or.inl (by simp [h])
    · rcases tileAtD_setTile_cases g e p h with h1 | h1
      · exact Or.inl (by simp [h1])
      · exact Or.inr h1

theorem foldl_setTile_length (l : List Pos) :
    ∀ g : List (List Tile), (l.foldl setTile g).length = g.length := by
  induction l with
  | nil => intro g; rfl
  | cons e rest ih =>
    intro g
    rw [List.foldl_cons, ih, setTile_length]

theorem foldl_setTile_rowlen (l : List Pos) (w : Nat) :
    ∀ g : List (List Tile), (∀ row ∈ g, row.length = w) →
      ∀ row ∈ l.foldl setTile g, row.length = w := by
  induction l with
  | nil => intro g hg; exact hg
  | cons e rest ih =>
    intro g hg
    exact ih (setTile g e) (setTile_rowlen g e w hg)

theorem foldl_setTile_count (nx ny : Nat) (l : List Pos) :
    ∀ g : List (List Tile),
      (∀ e ∈ l, e ∈ edgeList nx ny) → l.Nodup →
      (∀ e ∈ l, tileAtD g e = Tile.Wall) →
      g.length = 2 * ny + 1 → (∀ row ∈ g, row.length = 2 * nx + 1) →
      countFreeEdges nx ny (l.foldl setTile g) =
        countFreeEdges nx ny g + l.length := by
  induction l with
  | nil => intro g _ _ _ _ _; simp
  | cons e rest ih =>
    intro g hmem hnodup hwall hglen hrow
    rw [List.foldl_cons]
    have hrec := ih (setTile g e)
      (fun e' he' => hmem e' (by simp [he']))
      (List.nodup_cons.1 hnodup).2
      (fun e' he' => by
        have hne' : e' ≠ e := fun heq => (List.nodup_cons.1 hnodup).1 (heq ▸ he')
        rw [tileAtD_setTile_ne g e e' hne']
        exact hwall e' (by simp [he']))
      (by rw [setTile_length]; exact hglen)
      (setTile_rowlen g e _ hrow)
    rw [hrec, countFreeEdges_setTile nx ny g e (hmem e (by simp))
      (hwall e (by simp)) hglen hrow]
    simp only [List.length_cons]
    omega

/-! ## Results about the spanning phase -/

theorem spanFold_result (nx ny : Nat) (p1 : List Pos)
    (hp : p1.Perm (edgeList nx ny)) :
    ∃ st', spanFold nx ny p1 = some st' ∧ SpanInv nx ny p1.length st' ∧
      ∀ e ∈ edgeList nx ny,
        UnionFind.rootD st'.uf (node_to_idx (edgeCells e).1 nx ny) =
          UnionFind.rootD st'.uf (node_to_idx (edgeCells e).2 nx ny) := by
  have hmem : ∀ e ∈ p1, e ∈ edgeList nx ny := fun e he => hp.mem_iff.1 he
  have hnodup : p1.Nodup := hp.nodup_iff.2 (edgeList_nodup nx ny)
  have hwall : ∀ e ∈ p1, tileAtD (mazeEmpty nx ny) e = Tile.Wall := by
    intro e he
    obtain ⟨_, _, _, _, hpar⟩ := edge_interior nx ny e (hmem e he)
    rw [mazeEmpty_tileAtD]
    rw [if_neg (by omega)]
  obtain ⟨st', hfold, hinv, _, hedges⟩ := spanFold_go nx ny p1
    ⟨mazeEmpty nx ny, UnionFind.new (nx * ny), []⟩ 0 (spanInv_init nx ny)
    hmem hnodup hwall (fun e _ h => absurd h (by simp))
  refine ⟨st', hfold, by simpa using hinv, ?_⟩
  intro e he
  exact hedges e (hp.mem_iff.2 he)

theorem horiz_edge_idx (nx ny i j : Nat) :
    node_to_idx (edgeCells ⟨2 * (i + 1), 2 * j + 1⟩).1 nx ny = cellIdx nx i j ∧
      node_to_idx (edgeCells ⟨2 * (i + 1), 2 * j + 1⟩).2 nx ny =
        cellIdx nx (i + 1) j := by
  have hh : is_horizontal_edge ⟨2 * (i + 1), 2 * j + 1⟩ = true := by
    simp [is_horizontal_edge]
  rw [edgeCells, if_pos hh]
  simp only [node_to_idx, cellIdx]
  have h1 : (2 * (i + 1) - 1) / 2 = i := by omega
  have h2 : (2 * j + 1) / 2 = j := by omega
  have h3 : (2 * (i + 1) + 1) / 2 = i + 1 := by omega
  rw [h1, h2, h3]
  exact ⟨rfl, rfl⟩

theorem vert_edge_idx (nx ny i j : Nat) :
    node_to_idx (edgeCells ⟨2 * i + 1, 2 * (j + 1)⟩).1 nx ny = cellIdx nx i j ∧
      node_to_idx (edgeCells ⟨2 * i + 1, 2 * (j + 1)⟩).2 nx ny =
        cellIdx nx i (j + 1) := by
  have hh : ¬ is_horizontal_edge ⟨2 * i + 1, 2 * (j + 1)⟩ = true := by
    simp [is_horizontal_edge]
    omega
  rw [edgeCells, if_neg hh]
  simp only [node_to_idx, cellIdx]
  have h1 : (2 * (j + 1) - 1) / 2 = j := by omega
  have h2 : (2 * i + 1) / 2 = i := by omega
  have h3 : (2 * (j + 1) + 1) / 2 = j + 1 := by omega
  rw [h1, h2, h3]
  exact ⟨rfl, rfl⟩

/-- After all edges have been processed, all cells share one root. -/
theorem all_roots_eq (nx ny : Nat) (hnx : 1 ≤ nx) (hny : 1 ≤ ny)
    (uf : List Nat)
    (hedges : ∀ e ∈ edgeList nx ny,
      UnionFind.rootD uf (node_to_idx (edgeCells e).1 nx ny) =
        UnionFind.rootD uf (node_to_idx (edgeCells e).2 nx ny)) :
    ∀ a b, a < nx * ny → b < nx * ny →
      UnionFind.rootD uf a = UnionFind.rootD uf b := by
  have hhoriz : ∀ i j, i + 1 < nx → j < ny →
      UnionFind.rootD uf (cellIdx nx i j) = UnionFind.rootD uf (cellIdx nx (i + 1) j) := by
    intro i j hi hj
    have he : (⟨2 * (i + 1), 2 * j + 1⟩ : Pos) ∈ edgeList nx ny :=
      (mem_edgeList nx ny _).2 (Or.inl ⟨i + 1, j, by omega, hi, hj, rfl⟩)
    have h := hedges _ he
    rw [(horiz_edge_idx nx ny i j).1, (horiz_edge_idx nx ny i j).2] at h
    exact h
  have hvert : ∀ i j, i < nx → j + 1 < ny →
      UnionFind.rootD uf (cellIdx nx i j) = UnionFind.rootD uf (cellIdx nx i (j + 1)) := by
    intro i j hi hj
    have he : (⟨2 * i + 1, 2 * (j + 1)⟩ : Pos) ∈ edgeList nx ny :=
      (mem_edgeList nx ny _).2 (Or.inr ⟨i, j + 1, hi, by omega, hj, rfl⟩)
    have h := hedges _ he
    rw [(vert_edge_idx nx ny i j).1, (vert_edge_idx nx ny i j).2] at h
    exact h
  have hrow : ∀ i j, i < nx → j < ny →
      UnionFind.rootD uf (cellIdx nx i j) = UnionFind.rootD uf (cellIdx nx 0 j) := by
    intro i
    induction i with
    | zero => intro j _ _; rfl
    | succ n ihn =>
      intro j hn hj
      rw [← hhoriz n j hn hj]
      exact ihn j (by omega) hj
  have hcol : ∀ j, j < ny →
      UnionFind.rootD uf (cellIdx nx 0 j) = UnionFind.rootD uf (cellIdx nx 0 0) := by
    intro j
    induction j with
    | zero => intro _; rfl
    | succ n ihn =>
      intro hn
      rw [← hvert 0 n (by omega) hn]
      exact ihn (by omega)
  have hcell : ∀ a, a < nx * ny →
      UnionFind.rootD uf a = UnionFind.rootD uf (cellIdx nx 0 0) := by
    intro a ha
    have hnx0 : 0 < nx := by omega
    have hmod : a % nx < nx := Nat.mod_lt a hnx0
    have hdivlt : a / nx < ny := by
      rw [Nat.div_lt_iff_lt_mul hnx0]
      calc a < nx * ny := ha
        _ = ny * nx := Nat.mul_comm nx ny
    have hrepr : cellIdx nx (a % nx) (a / nx) = a := by
      rw [cellIdx]
      rw [Nat.mul_comm (a / nx) nx]
      exact Nat.div_add_mod a nx
    calc UnionFind.rootD uf a = UnionFind.rootD uf (cellIdx nx (a % nx) (a / nx)) := by
          rw [hrepr]
      _ = UnionFind.rootD uf (cellIdx nx 0 (a / nx)) := hrow _ _ hmod hdivlt
      _ = UnionFind.rootD uf (cellIdx nx 0 0) := hcol _ hdivlt
  intro a b ha hb
  rw [hcell a ha, hcell b hb]

/-- Final state of the spanning phase: the fold succeeds, the invariant
holds, all cells share one root, and exactly `(nx-1) * (ny-1)` edges are
unused. -/
theorem spanFold_final (nx ny : Nat) (hnx : 1 ≤ nx) (hny : 1 ≤ ny)
    (p1 : List Pos) (hp : p1.Perm (edgeList nx ny)) :
    ∃ st', spanFold nx ny p1 = some st' ∧ SpanInv nx ny p1.length st' ∧
      (∀ a b, a < nx * ny → b < nx * ny →
        UnionFind.rootD st'.uf a = UnionFind.rootD st'.uf b) ∧
      st'.unused.length = (nx - 1) * (ny - 1) ∧
      countFreeEdges nx ny st'.grid = nx * ny - 1 := by
  obtain ⟨st', hfold, hinv, hedges⟩ := spanFold_result nx ny p1 hp
  have hall := all_roots_eq nx ny hnx hny st'.uf hedges
  have hone : numClasses st'.uf = 1 := by
    have hpos : 0 < nx * ny := Nat.mul_pos (by omega) (by omega)
    apply numClasses_eq_one st'.uf (by rw [hinv.uflen]; omega)
    intro x y hx hy
    rw [hinv.uflen] at hx hy
    exact hall x y hx hy
  have hp1len : p1.length = ny * (nx - 1) + nx * (ny - 1) := by
    rw [hp.length_eq, edgeList_length]
  obtain ⟨A, rfl⟩ : ∃ A, nx = A + 1 := ⟨nx - 1, by omega⟩
  obtain ⟨B, rfl⟩ : ∃ B, ny = B + 1 := ⟨ny - 1, by omega⟩
  have e1 : p1.length = 2 * (A * B) + A + B := by
    rw [hp1len]
    have h1 : A + 1 - 1 = A := by omega
    have h2 : B + 1 - 1 = B := by omega
    rw [h1, h2]
    ring
  have e2 : (A + 1) * (B + 1) = A * B + A + B + 1 := by ring
  have e3 : (A + 1 - 1) * (B + 1 - 1) = A * B := by simp
  have hcc := hinv.classCount
  have hle := hinv.unusedLe
  have hfc := hinv.freeCount
  rw [hone] at hcc
  refine ⟨st', hfold, hinv, hall, ?_, ?_⟩
  · rw [e3]
    omega
  · rw [hfc]
    omega

/-! ## Kruskal end-to-end helpers -/

theorem kruskal_some_elim (nx ny : Nat) (p1 p2 : List Pos)
    (m : List (List Tile)) (h : kruskal nx ny p1 p2 = some m) :
    ∃ st', spanFold nx ny p1 = some st' ∧ nx * ny / 2 ≤ p2.length ∧
      m = (p2.take (nx * ny / 2)).foldl setTile st'.grid := by
  rw [kruskal] at h
  rcases hsp : spanFold nx ny p1 with _ | st'
  · rw [hsp] at h
    exact absurd h (by simp)
  · rw [hsp, Option.some_bind] at h
    by_cases hn : nx * ny / 2 ≤ p2.length
    · rw [if_pos hn] at h
      exact ⟨st', rfl, hn, (Option.some.inj h).symm⟩
    · rw [if_neg hn] at h
      exact absurd h (by simp)

theorem kruskal_isSome_helper (nx ny : Nat) (hnx : 1 ≤ nx) (hny : 1 ≤ ny)
    (p1 p2 : List Pos) (hp1 : p1.Perm (edgeList nx ny))
    (hp2 : ∀ u, kruskalUnused nx ny p1 = some u → p2.Perm u) :
    (kruskal nx ny p1 p2).isSome ↔ nx * ny / 2 ≤ (nx - 1) * (ny - 1) := by
  obtain ⟨st', hfold, hinv, hall, hulen, hfc⟩ :=
    spanFold_final nx ny hnx hny p1 hp1
  have hu : kruskalUnused nx ny p1 = some st'.unused := by
    rw [kruskalUnused, hfold]
    rfl
  have hp2len : p2.length = (nx - 1) * (ny - 1) := by
    rw [(hp2 st'.unused hu).length_eq, hulen]
  rw [kruskal, hfold, Option.some_bind]
  by_cases hn : nx * ny / 2 ≤ p2.length
  · rw [if_pos hn]
    simp only [Option.isSome_some, true_iff]
    rw [← hp2len]
    exact hn
  · rw [if_neg hn]
    rw [← hp2len]
    simp only [Option.isSome_none, Bool.false_eq_true, false_iff]
    exact hn

/-- Connectivity of the generated maze: any two cells are joined through
Free tiles. -/
theorem kruskal_connected_helper (nx ny : Nat) (hnx : 1 ≤ nx) (hny : 1 ≤ ny)
    (p1 p2 : List Pos) (hp1 : p1.Perm (edgeList nx ny))
    (m : List (List Tile)) (hm : kruskal nx ny p1 p2 = some m)
    (i j i' j' : Nat) (hi : i < nx) (hj : j < ny) (hi' : i' < nx) (hj' : j' < ny) :
    ReachFree m (cellPos i j) (cellPos i' j') := by
  obtain ⟨st', hfold, hn, hmeq⟩ := kruskal_some_elim nx ny p1 p2 m hm
  obtain ⟨st'', hfold', hinv, hall, _, _⟩ := spanFold_final nx ny hnx hny p1 hp1
  rw [hfold] at hfold'
  obtain rfl : st' = st'' := Option.some.inj hfold'
  have hroots := hall (cellIdx nx i j) (cellIdx nx i' j')
    (cellIdx_lt nx ny i j hi hj) (cellIdx_lt nx ny i' j' hi' hj')
  have hreach := hinv.freeConn (cellIdx nx i j) (cellIdx nx i' j')
    (cellIdx_lt nx ny i j hi hj) (cellIdx_lt nx ny i' j' hi' hj') hroots
  rw [cellPosIdx_cellIdx nx i j hi, cellPosIdx_cellIdx nx i' j' hi'] at hreach
  rw [hmeq]
  exact reachFree_mono (fun p hp => foldl_setTile_free_mono _ _ p hp) hreach

/-- Count of opened edge slots in a completed generation. -/
theorem kruskal_count_helper (nx ny : Nat) (hnx : 1 ≤ nx) (hny : 1 ≤ ny)
    (p1 p2 : List Pos) (hp1 : p1.Perm (edgeList nx ny))
    (hp2 : ∀ u, kruskalUnused nx ny p1 = some u → p2.Perm u)
    (m : List (List Tile)) (hm : kruskal nx ny p1 p2 = some m) :
    countFreeEdges nx ny m = (nx * ny - 1) + nx * ny / 2 := by
  obtain ⟨st', hfold, hn, hmeq⟩ := kruskal_some_elim nx ny p1 p2 m hm
  obtain ⟨st'', hfold', hinv, hall, hulen, hfc⟩ :=
    spanFold_final nx ny hnx hny p1 hp1
  rw [hfold] at hfold'
  obtain rfl : st' = st'' := Option.some.inj hfold'
  have hu : kruskalUnused nx ny p1 = some st'.unused := by
    rw [kruskalUnused, hfold]
    rfl
  have hperm := hp2 st'.unused hu
  have htake : ∀ e ∈ p2.take (nx * ny / 2), e ∈ st'.unused := by
    intro e he
    exact hperm.mem_iff.1 (List.mem_of_mem_take he)
  have hcount := foldl_setTile_count nx ny (p2.take (nx * ny / 2)) st'.grid
    (fun e he => hinv.unusedMem e (htake e he))
    ((hperm.nodup_iff.2 hinv.unusedNodup).sublist (List.take_sublist _ _))
    (fun e he => hinv.unusedWall e (htake e he))
    hinv.glen hinv.rowlen
  rw [hmeq, hcount, hfc, List.length_take]
  omega

/-- Structural facts about a completed generation, needed by the walker:
dimensions, interiority of Free tiles, all cells Free. -/
theorem kruskal_grid_good (nx ny : Nat) (hnx : 1 ≤ nx) (hny : 1 ≤ ny)
    (p1 p2 : List Pos) (hp1 : p1.Perm (edgeList nx ny))
    (hp2 : ∀ u, kruskalUnused nx ny p1 = some u → p2.Perm u)
    (m : List (List Tile)) (hm : kruskal nx ny p1 p2 = some m) :
    m.length = 2 * ny + 1 ∧ (∀ row ∈ m, row.length = 2 * nx + 1) ∧
      (∀ p, tileAtD m p = Tile.Free →
        1 ≤ p.x ∧ p.x ≤ 2 * nx - 1 ∧ 1 ≤ p.y ∧ p.y ≤ 2 * ny - 1) ∧
      (∀ i j, i < nx → j < ny → tileAtD m (cellPos i j) = Tile.Free) := by
  obtain ⟨st', hfold, hn, hmeq⟩ := kruskal_some_elim nx ny p1 p2 m hm
  obtain ⟨st'', hfold', hinv, _, _, _⟩ := spanFold_final nx ny hnx hny p1 hp1
  rw [hfold] at hfold'
  obtain rfl : st' = st'' := Option.some.inj hfold'
  have hu : kruskalUnused nx ny p1 = some st'.unused := by
    rw [kruskalUnused, hfold]
    rfl
  have hperm := hp2 st'.unused hu
  have htake : ∀ e ∈ p2.take (nx * ny / 2), e ∈ st'.unused := by
    intro e he
    exact hperm.mem_iff.1 (List.mem_of_mem_take he)
  subst hmeq
  refine ⟨?_, ?_, ?_, ?_⟩
  · rw [foldl_setTile_length, hinv.glen]
  · exact foldl_setTile_rowlen _ _ _ hinv.rowlen
  · intro p hp
    rcases foldl_setTile_cases _ _ p hp with h | h
    · obtain ⟨h1, h2, h3, h4, _⟩ :=
        edge_interior nx ny p (hinv.unusedMem p (htake p h))
      exact ⟨h1, h2, h3, h4⟩
    · exact hinv.freeInterior p h
  · intro i j hi hj
    exact foldl_setTile_free_mono _ _ _ (hinv.cellsFree i j hi hj)

/-! ## The walker (`src/main.rs`)

`AppState` models the logic-relevant fields of `App`: the background tile
layer, the visited layer (a set of positions), and the robot's position,
facing and backtrack stack.  The foreground layer (`layer_fg`) only
drives rendering (stack/robot markers) and is never read by the walking
logic, so it is omitted.  `on_tick` is parameterised by the number `c`
drawn by `rand::random_range` inside `select_idx` and by the maze `mz`
generated if `reinit` runs. -/

structure AppState where
  bg : List (List Tile)
  visited : Pos → Bool
  robot_pos : Pos
  robot_dir : Direction
  robot_stack : List Pos

/-- `App::robot_pos_with_offset`. -/
def robot_pos_with_offset (s : AppState) (o : Int × Int) : Option Pos :=
  posAdd s.robot_pos ⟨o.1, o.2, s.robot_dir⟩

/-- Byte written by `robot_scan` for a tile. -/
def tileChar : Tile → Char
  | Tile.Free => '.'
  | Tile.Wall => 'O'

/-- One read of the scan loop body (offset lookup, unwrap, tile read). -/
def scanRead (s : AppState) (ox oy : Int) : Option Char :=
  (robot_pos_with_offset s (ox, oy)).bind fun glob =>
    (tileAt? s.bg glob).map tileChar

/-- `App::robot_scan`: the nine reads in loop order (`y_loc` outer,
`x_loc` inner, both `-1..=1`); any `unwrap` panic gives `none`. -/
def robot_scan (s : AppState) : Option (List Char) :=
  (scanRead s (-1) (-1)).bind fun c0 =>
  (scanRead s 0 (-1)).bind fun c1 =>
  (scanRead s 1 (-1)).bind fun c2 =>
  (scanRead s (-1) 0).bind fun c3 =>
  (scanRead s 0 0).bind fun c4 =>
  (scanRead s 1 0).bind fun c5 =>
  (scanRead s (-1) 1).bind fun c6 =>
  (scanRead s 0 1).bind fun c7 =>
  (scanRead s 1 1).map fun c8 =>
  [c0, c1, c2, c3, c4, c5, c6, c7, c8]

/-- `App::robot_step`: move one tile ahead; the `Wall` branch is the fatal
`panic!("robot tried to move to wall")`. -/
def robot_step (s : AppState) : Option AppState :=
  (robot_pos_with_offset s (0, -1)).bind fun glob =>
    (tileAt? s.bg glob).bind fun t =>
      match t with
      | Tile.Free => some { s with robot_pos := glob }
      | Tile.Wall => none

/-- `App::robot_stack_push` (`Vec::push` appends at the end). -/
def robot_stack_push (s : AppState) (pos : Pos) : AppState :=
  { s with robot_stack := s.robot_stack ++ [pos] }

/-- `App::robot_stack_pop` (`Vec::pop` removes the last element). -/
def robot_stack_pop (s : AppState) : Option (Pos × AppState) :=
  match s.robot_stack.getLast? with
  | none => none
  | some p => some (p, { s with robot_stack := s.robot_stack.dropLast })

/-- `App::robot_turn_right`. -/
def robot_turn_right (s : AppState) : AppState :=
  { s with robot_dir := s.robot_dir.right }

/-- `App::robot_turn_left`. -/
def robot_turn_left (s : AppState) : AppState :=
  { s with robot_dir := s.robot_dir.left }

/-- The index-scan loop of `fn select_idx`: walk the slice, counting
`true` entries, stopping at the `n`-th; running off the end is the
out-of-range panic (`none`). -/
def selectAux : List Bool → Nat → Nat → Option Nat
  | [], _, _ => none
  | v :: rest, n, idx =>
    if v then (if n = 0 then some idx else selectAux rest (n - 1) (idx + 1))
    else selectAux rest n (idx + 1)

/-- `fn select_idx`, with the randomly drawn `n` as a parameter; the
`ntrue == 0` panic is `none`. -/
def select_idx (values : List Bool) (n : Nat) : Option Nat :=
  if values.count true = 0 then none else selectAux values n 0

/-- Marking a tile of the visited layer. -/
def setVisited (v : Pos → Bool) (p : Pos) : Pos → Bool :=
  fun q => if q = p then true else v q

/-- The `while back != front { turn right }` loop of the backtracking
branch, fueled; `none` models an unwrap panic inside the loop or a spin
that never finds `back` ahead. -/
def rotateUntil : Nat → AppState → Pos → Option AppState
  | 0, _, _ => none
  | f + 1, s, back =>
    (robot_pos_with_offset s (0, -1)).bind fun fr =>
      if back = fr then some s else rotateUntil f (robot_turn_right s) back

/-- `App::reinit` given the freshly generated maze `mz` (the source fixes
`(w, h) = (16, 16)` and copies `maze.tiles` into the background layer):
robot at `(1, 1)` facing `E`, only `(1, 1)` visited, empty stack. -/
def initState (mz : List (List Tile)) : AppState :=
  { bg := mz,
    visited := fun p => decide (p = ⟨1, 1⟩),
    robot_pos := ⟨1, 1⟩,
    robot_dir := Direction.E,
    robot_stack := [] }

/-- `App::on_tick`.  `c` is the random draw used by `select_idx`, `mz`
the maze generated if the stack is exhausted. -/
def on_tick (s : AppState) (c : Nat) (mz : List (List Tile)) : Option AppState :=
  (robot_scan s).bind fun scan =>
  (robot_pos_with_offset s (0, -1)).bind fun front_coords =>
  (robot_pos_with_offset s (-1, 0)).bind fun left_coords =>
  (robot_pos_with_offset s (1, 0)).bind fun right_coords =>
  let right := scan.getD 5 'O'
  let front := scan.getD 1 'O'
  let left := scan.getD 3 'O'
  let f0 := decide (front = '.') && !s.visited front_coords
  let f1 := decide (right = '.') && !s.visited right_coords
  let f2 := decide (left = '.') && !s.visited left_coords
  if f0 || f1 || f2 then
    (select_idx [f0, f1, f2] c).bind fun idx =>
      if idx = 0 then
        robot_step (robot_stack_push
          { s with visited := setVisited s.visited front_coords } s.robot_pos)
      else if idx = 1 then
        robot_step (robot_turn_right (robot_stack_push
          { s with visited := setVisited s.visited right_coords } s.robot_pos))
      else if idx = 2 then
        robot_step (robot_turn_left (robot_stack_push
          { s with visited := setVisited s.visited left_coords } s.robot_pos))
      else none
  else
    match robot_stack_pop s with
    | none => some (initState mz)
    | some (back, s1) => (rotateUntil 4 s1 back).bind robot_step

/-- The three eligibility flags (front, right, left), as `on_tick`
computes them. -/
def freeFlags (s : AppState) : Option (List Bool) :=
  (robot_scan s).bind fun scan =>
  (robot_pos_with_offset s (0, -1)).bind fun front_coords =>
  (robot_pos_with_offset s (-1, 0)).bind fun left_coords =>
  (robot_pos_with_offset s (1, 0)).map fun right_coords =>
    [decide (scan.getD 1 'O' = '.') && !s.visited front_coords,
     decide (scan.getD 5 'O' = '.') && !s.visited right_coords,
     decide (scan.getD 3 'O' = '.') && !s.visited left_coords]

/-- Mazes the program can feed the walker: any output of
`Maze::kruskal(16, 16)` over the two shuffles. -/
def MazeOK (m : List (List Tile)) : Prop :=
  ∃ p1 p2, p1.Perm (edgeList 16 16) ∧
    (∀ u, kruskalUnused 16 16 p1 = some u → p2.Perm u) ∧
    kruskal 16 16 p1 p2 = some m

/-- Walker initial configurations. -/
def Initial (s : AppState) : Prop := ∃ mz, MazeOK mz ∧ s = initState mz

/-- One `on_tick` for some random draw and some regeneration maze. -/
def StepR (s s' : AppState) : Prop :=
  ∃ c mz, MazeOK mz ∧ on_tick s c mz = some s'

/-- States of the walker reachable from an initial configuration. -/
def Reachable (s : AppState) : Prop :=
  ∃ s0, Initial s0 ∧ Relation.ReflTransGen StepR s0 s

/-! ## Direction tables -/

/-- Absolute delta of a relative offset for each facing (ghost function
describing `RelPos::reorient _ N`). -/
def rotDelta (d : Direction) (o : Int × Int) : Int × Int :=
  match d with
  | Direction.N => o
  | Direction.E => (-o.2, o.1)
  | Direction.S => (-o.1, -o.2)
  | Direction.W => (o.2, -o.1)

theorem reorient_to_north (x y : Int) (d : Direction) :
    RelPos.reorient ⟨x, y, d⟩ Direction.N =
      ⟨(rotDelta d (x, y)).1, (rotDelta d (x, y)).2, Direction.N⟩ := by
  cases d <;>
    simp [RelPos.reorient, RelPos.reorientAux, RelPos.reorient_right, rotDelta,
      Direction.right]

theorem posAdd_rot (p : Pos) (o : Int × Int) (d : Direction) :
    posAdd p ⟨o.1, o.2, d⟩ =
      if 0 ≤ (p.x : Int) + (rotDelta d o).1 ∧ 0 ≤ (p.y : Int) + (rotDelta d o).2
      then some ⟨((p.x : Int) + (rotDelta d o).1).toNat,
        ((p.y : Int) + (rotDelta d o).2).toNat⟩
      else none := by
  rw [posAdd, reorient_to_north]

/-- Tile directly ahead for each facing (assuming no underflow). -/
def frontPos (p : Pos) : Direction → Pos
  | Direction.N => ⟨p.x, p.y - 1⟩
  | Direction.E => ⟨p.x + 1, p.y⟩
  | Direction.S => ⟨p.x, p.y + 1⟩
  | Direction.W => ⟨p.x - 1, p.y⟩

/-- Tile to the right of the facing. -/
def rightPos (p : Pos) : Direction → Pos
  | Direction.N => ⟨p.x + 1, p.y⟩
  | Direction.E => ⟨p.x, p.y + 1⟩
  | Direction.S => ⟨p.x - 1, p.y⟩
  | Direction.W => ⟨p.x, p.y - 1⟩

/-- Tile to the left of the facing. -/
def leftPos (p : Pos) : Direction → Pos
  | Direction.N => ⟨p.x - 1, p.y⟩
  | Direction.E => ⟨p.x, p.y - 1⟩
  | Direction.S => ⟨p.x + 1, p.y⟩
  | Direction.W => ⟨p.x, p.y + 1⟩

theorem frontPos_right (p : Pos) (d : Direction) :
    frontPos p d.right = rightPos p d := by
  cases d <;> rfl

theorem frontPos_left (p : Pos) (d : Direction) :
    frontPos p d.left = leftPos p d := by
  cases d <;> rfl

theorem rpwo_front (s : AppState) (hx : 1 ≤ s.robot_pos.x)
    (hy : 1 ≤ s.robot_pos.y) :
    robot_pos_with_offset s (0, -1) =
      some (frontPos s.robot_pos s.robot_dir) := by
  rw [robot_pos_with_offset, posAdd_rot]
  cases hd : s.robot_dir <;>
    · rw [if_pos (by simp only [rotDelta]; omega)]
      simp only [rotDelta, frontPos, Option.some.injEq, Pos.mk.injEq]
      omega

theorem rpwo_right (s : AppState) (hx : 1 ≤ s.robot_pos.x)
    (hy : 1 ≤ s.robot_pos.y) :
    robot_pos_with_offset s (1, 0) =
      some (rightPos s.robot_pos s.robot_dir) := by
  rw [robot_pos_with_offset, posAdd_rot]
  cases hd : s.robot_dir <;>
    · rw [if_pos (by simp only [rotDelta]; omega)]
      simp only [rotDelta, rightPos, Option.some.injEq, Pos.mk.injEq]
      omega

theorem rpwo_left (s : AppState) (hx : 1 ≤ s.robot_pos.x)
    (hy : 1 ≤ s.robot_pos.y) :
    robot_pos_with_offset s (-1, 0) =
      some (leftPos s.robot_pos s.robot_dir) := by
  rw [robot_pos_with_offset, posAdd_rot]
  cases hd : s.robot_dir <;>
    · rw [if_pos (by simp only [rotDelta]; omega)]
      simp only [rotDelta, leftPos, Option.some.injEq, Pos.mk.injEq]
      omega

/-! ## Grid facts used by the walker -/

/-- What the walker needs from a generated maze: a 33 x 33 grid whose
Free tiles are strictly inside the border ring and whose entrance cell
`(1, 1)` is Free. -/
structure GoodGrid (g : List (List Tile)) : Prop where
  glen : g.length = 33
  rowlen : ∀ row ∈ g, row.length = 33
  freeInterior : ∀ p, tileAtD g p = Tile.Free →
    1 ≤ p.x ∧ p.x ≤ 31 ∧ 1 ≤ p.y ∧ p.y ≤ 31
  startFree : tileAtD g ⟨1, 1⟩ = Tile.Free

theorem GoodGrid.rowlen_at {g : List (List Tile)} (hg : GoodGrid g) (y : Nat)
    (hy : y < 33) : (g.getD y []).length = 33 := by
  refine hg.rowlen _ ?_
  rw [List.getD_eq_getElem g [] (by rw [hg.glen]; simpa using hy)]
  exact List.getElem_mem _

theorem mazeOK_good {m : List (List Tile)} (hm : MazeOK m) : GoodGrid m := by
  obtain ⟨p1, p2, hp1, hp2, hk⟩ := hm
  obtain ⟨hglen, hrow, hint, hcells⟩ :=
    kruskal_grid_good 16 16 (by omega) (by omega) p1 p2 hp1 hp2 m hk
  refine ⟨by simpa using hglen, by simpa using hrow, ?_, ?_⟩
  · intro p hp
    have := hint p hp
    omega
  · have := hcells 0 0 (by omega) (by omega)
    simpa [cellPos] using this

theorem tileAt?_eq (g : List (List Tile)) (p : Pos) (hy : p.y < g.length)
    (hx : p.x < (g.getD p.y []).length) : tileAt? g p = some (tileAtD g p) := by
  have h1 : g[p.y]? = some (g.getD p.y []) := by
    rw [List.getD_eq_getElem g [] (by simpa using hy), List.getElem?_eq_getElem]
  rw [tileAt?, h1, Option.some_bind, tileAtD,
    List.getD_eq_getElem _ Tile.Wall (by simpa using hx),
    List.getElem?_eq_getElem (by simpa using hx)]

theorem rpwo_small_some (s : AppState) (ox oy : Int) (hox : ox.natAbs ≤ 1)
    (hoy : oy.natAbs ≤ 1) (hx : 1 ≤ s.robot_pos.x) (hy : 1 ≤ s.robot_pos.y) :
    ∃ glob, robot_pos_with_offset s (ox, oy) = some glob ∧
      glob.x ≤ s.robot_pos.x + 1 ∧ glob.y ≤ s.robot_pos.y + 1 := by
  rw [robot_pos_with_offset, posAdd_rot]
  cases s.robot_dir <;>
    · rw [if_pos (by simp only [rotDelta]; omega)]
      exact ⟨_, rfl, by simp only [rotDelta]; omega, by simp only [rotDelta]; omega⟩

theorem scanRead_some (s : AppState) (hg : GoodGrid s.bg) (ox oy : Int)
    (hox : ox.natAbs ≤ 1) (hoy : oy.natAbs ≤ 1)
    (hx : 1 ≤ s.robot_pos.x) (hy : 1 ≤ s.robot_pos.y)
    (hxu : s.robot_pos.x ≤ 31) (hyu : s.robot_pos.y ≤ 31) :
    ∃ c, scanRead s ox oy = some c := by
  obtain ⟨glob, hglob, hgx, hgy⟩ := rpwo_small_some s ox oy hox hoy hx hy
  have ht := tileAt?_eq s.bg glob (by rw [hg.glen]; omega)
    (by rw [hg.rowlen_at glob.y (by omega)]; omega)
  refine ⟨tileChar (tileAtD s.bg glob), ?_⟩
  rw [scanRead, hglob, Option.some_bind, ht]
  rfl

theorem scanRead_at (s : AppState) (hg : GoodGrid s.bg) (ox oy : Int)
    (glob : Pos) (hglob : robot_pos_with_offset s (ox, oy) = some glob)
    (hgx : glob.x ≤ 32) (hgy : glob.y ≤ 32) :
    scanRead s ox oy = some (tileChar (tileAtD s.bg glob)) := by
  have ht := tileAt?_eq s.bg glob (by rw [hg.glen]; omega)
    (by rw [hg.rowlen_at glob.y (by omega)]; omega)
  rw [scanRead, hglob, Option.some_bind, ht]
  rfl

theorem robot_scan_eval (s : AppState) (hg : GoodGrid s.bg)
    (hx : 1 ≤ s.robot_pos.x) (hy : 1 ≤ s.robot_pos.y)
    (hxu : s.robot_pos.x ≤ 31) (hyu : s.robot_pos.y ≤ 31) :
    ∃ l, robot_scan s = some l ∧
      l.getD 1 'O' = tileChar (tileAtD s.bg (frontPos s.robot_pos s.robot_dir)) ∧
      l.getD 3 'O' = tileChar (tileAtD s.bg (leftPos s.robot_pos s.robot_dir)) ∧
      l.getD 5 'O' = tileChar (tileAtD s.bg (rightPos s.robot_pos s.robot_dir)) := by
  obtain ⟨c0, h0⟩ := scanRead_some s hg (-1) (-1) (by decide) (by decide) hx hy hxu hyu
  obtain ⟨c2, h2⟩ := scanRead_some s hg 1 (-1) (by decide) (by decide) hx hy hxu hyu
  obtain ⟨c4, h4⟩ := scanRead_some s hg 0 0 (by decide) (by decide) hx hy hxu hyu
  obtain ⟨c6, h6⟩ := scanRead_some s hg (-1) 1 (by decide) (by decide) hx hy hxu hyu
  obtain ⟨c7, h7⟩ := scanRead_some s hg 0 1 (by decide) (by decide) hx hy hxu hyu
  obtain ⟨c8, h8⟩ := scanRead_some s hg 1 1 (by decide) (by decide) hx hy hxu hyu
  have hfr : (frontPos s.robot_pos s.robot_dir).x ≤ 32 ∧
      (frontPos s.robot_pos s.robot_dir).y ≤ 32 := by
    cases s.robot_dir <;> · simp only [frontPos]; omega
  have hle : (leftPos s.robot_pos s.robot_dir).x ≤ 32 ∧
      (leftPos s.robot_pos s.robot_dir).y ≤ 32 := by
    cases s.robot_dir <;> · simp only [leftPos]; omega
  have hri : (rightPos s.robot_pos s.robot_dir).x ≤ 32 ∧
      (rightPos s.robot_pos s.robot_dir).y ≤ 32 := by
    cases s.robot_dir <;> · simp only [rightPos]; omega
  have h1 := scanRead_at s hg 0 (-1) _ (rpwo_front s hx hy) hfr.1 hfr.2
  have h3 := scanRead_at s hg (-1) 0 _ (rpwo_left s hx hy) hle.1 hle.2
  have h5 := scanRead_at s hg 1 0 _ (rpwo_right s hx hy) hri.1 hri.2
  refine ⟨[c0, tileChar (tileAtD s.bg (frontPos s.robot_pos s.robot_dir)), c2,
    tileChar (tileAtD s.bg (leftPos s.robot_pos s.robot_dir)), c4,
    tileChar (tileAtD s.bg (rightPos s.robot_pos s.robot_dir)), c6, c7, c8],
    ?_, rfl, rfl, rfl⟩
  rw [robot_scan, h0, Option.some_bind, h1, Option.some_bind, h2,
    Option.some_bind, h3, Option.some_bind, h4, Option.some_bind, h5,
    Option.some_bind, h6, Option.some_bind, h7, Option.some_bind, h8]
  rfl

/-! ## select_idx and robot_step lemmas -/

theorem select_idx_3_sound (b0 b1 b2 : Bool) (c r : Nat)
    (h : select_idx [b0, b1, b2] c = some r) :
    (r = 0 ∧ b0 = true) ∨ (r = 1 ∧ b1 = true) ∨ (r = 2 ∧ b2 = true) := by
  cases b0 <;> cases b1 <;> cases b2 <;>
    rcases c with _ | _ | _ | c <;>
    simp [select_idx, selectAux] at h <;>
    simp [h]

theorem select_idx_3_some (b0 b1 b2 : Bool) (c : Nat)
    (hc : c < [b0, b1, b2].count true) :
    (select_idx [b0, b1, b2] c).isSome := by
  cases b0 <;> cases b1 <;> cases b2 <;>
    rcases c with _ | _ | _ | c <;>
    simp_all [select_idx, selectAux, List.count_cons] <;> omega

theorem robot_step_eval (s : AppState) (hg : GoodGrid s.bg)
    (hx : 1 ≤ s.robot_pos.x) (hy : 1 ≤ s.robot_pos.y)
    (hxu : s.robot_pos.x ≤ 31) (hyu : s.robot_pos.y ≤ 31)
    (hfree : tileAtD s.bg (frontPos s.robot_pos s.robot_dir) = Tile.Free) :
    robot_step s = some { s with robot_pos := frontPos s.robot_pos s.robot_dir } := by
  have hb : (frontPos s.robot_pos s.robot_dir).x ≤ 32 ∧
      (frontPos s.robot_pos s.robot_dir).y ≤ 32 := by
    cases s.robot_dir <;> · simp only [frontPos]; omega
  have ht := tileAt?_eq s.bg (frontPos s.robot_pos s.robot_dir)
    (by rw [hg.glen]; omega) (by rw [hg.rowlen_at _ (by omega)]; omega)
  rw [robot_step, rpwo_front s hx hy, Option.some_bind, ht, Option.some_bind, hfree]

theorem adjacent_frontPos (p : Pos) (d : Direction) (hx : 1 ≤ p.x)
    (hy : 1 ≤ p.y) : Adjacent p (frontPos p d) := by
  cases d <;> simp only [Adjacent, frontPos, and_true, true_and, or_true, true_or] <;> omega

/-- An adjacent position is the front tile after at most three right
turns. -/
theorem rotate_cover (p back : Pos) (d : Direction) (hadj : Adjacent back p)
    (hx : 1 ≤ p.x) (hy : 1 ≤ p.y) :
    ∃ k, k ≤ 3 ∧ frontPos p (Direction.right^[k] d) = back := by
  have hN : frontPos p Direction.N = ⟨p.x, p.y - 1⟩ := rfl
  rcases hadj with ⟨hxx, hyy | hyy⟩ | ⟨hyy, hxx | hxx⟩
  · -- back is north of p (back.y + 1 = p.y)
    have : frontPos p Direction.N = back := by
      cases back
      simp only [frontPos, Pos.mk.injEq] at hxx hyy ⊢
      omega
    cases d
    · exact ⟨0, by omega, this⟩
    · exact ⟨3, by omega, this⟩
    · exact ⟨2, by omega, this⟩
    · exact ⟨1, by omega, this⟩
  · -- back is south of p (p.y + 1 = back.y)
    have : frontPos p Direction.S = back := by
      cases back
      simp only [frontPos, Pos.mk.injEq] at hxx hyy ⊢
      omega
    cases d
    · exact ⟨2, by omega, this⟩
    · exact ⟨1, by omega, this⟩
    · exact ⟨0, by omega, this⟩
    · exact ⟨3, by omega, this⟩
  · -- back is west of p (back.x + 1 = p.x)
    have : frontPos p Direction.W = back := by
      cases back
      simp only [frontPos, Pos.mk.injEq] at hxx hyy ⊢
      omega
    cases d
    · exact ⟨3, by omega, this⟩
    · exact ⟨2, by omega, this⟩
    · exact ⟨1, by omega, this⟩
    · exact ⟨0, by omega, this⟩
  · -- back is east of p (p.x + 1 = back.x)
    have : frontPos p Direction.E = back := by
      cases back
      simp only [frontPos, Pos.mk.injEq] at hxx hyy ⊢
      omega
    cases d
    · exact ⟨1, by omega, this⟩
    · exact ⟨0, by omega, this⟩
    · exact ⟨3, by omega, this⟩
    · exact ⟨2, by omega, this⟩

/-- The rotation loop reaches a state facing `back`, changing only the
facing. -/
theorem rotateUntil_eval (fuel : Nat) :
    ∀ (s : AppState) (back : Pos), 1 ≤ s.robot_pos.x → 1 ≤ s.robot_pos.y →
      (∃ k, k < fuel ∧ frontPos s.robot_pos (Direction.right^[k] s.robot_dir) = back) →
      ∃ d', rotateUntil fuel s back = some { s with robot_dir := d' } ∧
        frontPos s.robot_pos d' = back := by
  induction fuel with
  | zero =>
    intro s back _ _ ⟨k, hk, _⟩
    omega
  | succ f ih =>
    intro s back hx hy ⟨k, hk, hfront⟩
    rw [rotateUntil, rpwo_front s hx hy, Option.some_bind]
    by_cases heq : back = frontPos s.robot_pos s.robot_dir
    · rw [if_pos heq]
      exact ⟨s.robot_dir, by cases s; rfl, heq.symm⟩
    · rw [if_neg heq]
      have hk0 : k ≠ 0 := by
        intro h0
        rw [h0] at hfront
        exact heq (by simpa using hfront.symm)
      obtain ⟨k', rfl⟩ := Nat.exists_eq_succ_of_ne_zero hk0
      have hstep := ih (robot_turn_right s) back hx hy
        ⟨k', by omega, by
          show frontPos s.robot_pos
            (Direction.right^[k'] (Direction.right s.robot_dir)) = back
          rw [← Function.iterate_succ_apply]
          exact hfront⟩
      obtain ⟨d', hd', hfr⟩ := hstep
      exact ⟨d', hd', hfr⟩

/-! ## The walker invariant -/

/-- Invariant of every reachable walker state: the grid is a generated
maze, the robot stands on a Free visited tile, every stacked position is
Free and visited, and the stack extended by the robot position is a path
of orthogonally adjacent tiles. -/
structure AppInv (s : AppState) : Prop where
  good : GoodGrid s.bg
  posFree : tileAtD s.bg s.robot_pos = Tile.Free
  posVisited : s.visited s.robot_pos = true
  stackFree : ∀ p ∈ s.robot_stack, tileAtD s.bg p = Tile.Free
  stackVisited : ∀ p ∈ s.robot_stack, s.visited p = true
  pathChain : List.Chain' Adjacent (s.robot_stack ++ [s.robot_pos])

theorem inv_initState (mz : List (List Tile)) (hmz : MazeOK mz) :
    AppInv (initState mz) := by
  have hg := mazeOK_good hmz
  refine ⟨hg, hg.startFree, by simp [initState], ?_, ?_, ?_⟩
  · intro p hp
    exact absurd hp (by simp [initState])
  · intro p hp
    exact absurd hp (by simp [initState])
  · simp [initState]

theorem inv_interior {s : AppState} (hinv : AppInv s) :
    1 ≤ s.robot_pos.x ∧ s.robot_pos.x ≤ 31 ∧
      1 ≤ s.robot_pos.y ∧ s.robot_pos.y ≤ 31 :=
  hinv.good.freeInterior _ hinv.posFree

theorem setVisited_mono (v : Pos → Bool) (q p : Pos) (h : v p = true) :
    setVisited v q p = true := by
  rw [setVisited]
  by_cases hpq : p = q
  · rw [if_pos hpq]
  · rw [if_neg hpq]
    exact h

theorem setVisited_self (v : Pos → Bool) (q : Pos) :
    setVisited v q q = true := by
  rw [setVisited, if_pos rfl]

theorem pop_spec (s : AppState) (back : Pos) (s1 : AppState)
    (h : robot_stack_pop s = some (back, s1)) :
    s.robot_stack = s1.robot_stack ++ [back] ∧
      s1.bg = s.bg ∧ s1.visited = s.visited ∧ s1.robot_pos = s.robot_pos ∧
      s1.robot_dir = s.robot_dir ∧ s1.robot_stack = s.robot_stack.dropLast := by
  rw [robot_stack_pop] at h
  rcases hgl : s.robot_stack.getLast? with _ | p
  · rw [hgl] at h
    exact absurd h (by simp)
  · rw [hgl] at h
    have hne : s.robot_stack ≠ [] := by
      intro h0
      rw [h0] at hgl
      exact absurd hgl (by simp)
    obtain ⟨hb, hs1⟩ : back = p ∧ s1 = { s with robot_stack := s.robot_stack.dropLast } := by
      have := Option.some.inj h
      exact ⟨(congrArg Prod.fst this).symm, (congrArg Prod.snd this).symm⟩
    subst hb
    subst hs1
    refine ⟨?_, rfl, rfl, rfl, rfl, rfl⟩
    have hlast := List.getLast?_eq_getLast s.robot_stack hne
    rw [hlast] at hgl
    have hp : back = s.robot_stack.getLast hne := Option.some.inj hgl.symm
    rw [hp]
    exact (List.dropLast_append_getLast hne).symm

theorem chain_append_adj {l : List Pos} {a b : Pos}
    (h : List.Chain' Adjacent (l ++ [a])) (hab : Adjacent a b) :
    List.Chain' Adjacent ((l ++ [a]) ++ [b]) := by
  rw [List.chain'_append]
  refine ⟨h, List.chain'_singleton b, ?_⟩
  intro x hx y hy
  rw [List.getLast?_concat] at hx
  obtain rfl : a = x := by simpa using hx
  obtain rfl : b = y := by simpa using hy
  exact hab

theorem chain_last_adj {l : List Pos} {a b : Pos}
    (h : List.Chain' Adjacent ((l ++ [a]) ++ [b])) : Adjacent a b := by
  rw [List.chain'_append] at h
  refine h.2.2 a ?_ b ?_
  · rw [List.getLast?_concat]
    simp
  · simp

theorem tileChar_dot (t : Tile) :
    decide (tileChar t = '.') = decide (t = Tile.Free) := by
  cases t <;> rfl

theorem on_tick_preserve (s : AppState) (hinv : AppInv s) (c : Nat)
    (mz : List (List Tile)) (hmz : MazeOK mz) (s' : AppState)
    (h : on_tick s c mz = some s') : AppInv s' := by
  obtain ⟨hx, hxu, hy, hyu⟩ := inv_interior hinv
  obtain ⟨l, hscan, hl1, hl3, hl5⟩ := robot_scan_eval s hinv.good hx hy hxu hyu
  rw [on_tick, hscan, rpwo_front s hx hy, rpwo_left s hx hy,
    rpwo_right s hx hy] at h
  simp only [Option.some_bind, hl1, hl3, hl5, tileChar_dot] at h
  split at h
  · -- a direction is eligible
    rcases hsel : select_idx
        [decide (tileAtD s.bg (frontPos s.robot_pos s.robot_dir) = Tile.Free) &&
          !s.visited (frontPos s.robot_pos s.robot_dir),
         decide (tileAtD s.bg (rightPos s.robot_pos s.robot_dir) = Tile.Free) &&
          !s.visited (rightPos s.robot_pos s.robot_dir),
         decide (tileAtD s.bg (leftPos s.robot_pos s.robot_dir) = Tile.Free) &&
          !s.visited (leftPos s.robot_pos s.robot_dir)] c with _ | idx
    · rw [hsel] at h
      exact absurd h (by simp)
    · rw [hsel, Option.some_bind] at h
      rcases select_idx_3_sound _ _ _ c idx hsel with ⟨rfl, hb⟩ | ⟨rfl, hb⟩ | ⟨rfl, hb⟩
      · -- move front
        rw [if_pos rfl] at h
        obtain ⟨hfree, hnvis⟩ := Bool.and_eq_true_iff.1 hb
        have hfree' := of_decide_eq_true hfree
        rw [robot_step_eval (robot_stack_push { s with visited := (setVisited s.visited (frontPos s.robot_pos s.robot_dir)) } s.robot_pos)
          hinv.good hx hy hxu hyu hfree'] at h
        obtain rfl : _ = s' := Option.some.inj h
        refine ⟨hinv.good, hfree', setVisited_self _ _, ?_, ?_, ?_⟩
        · intro p hp
          rcases List.mem_append.1 hp with h1 | h1
          · exact hinv.stackFree p h1
          · obtain rfl : p = s.robot_pos := by simpa using h1
            exact hinv.posFree
        · intro p hp
          rcases List.mem_append.1 hp with h1 | h1
          · exact setVisited_mono _ _ _ (hinv.stackVisited p h1)
          · obtain rfl : p = s.robot_pos := by simpa using h1
            exact setVisited_mono _ _ _ hinv.posVisited
        · exact chain_append_adj hinv.pathChain
            (adjacent_frontPos s.robot_pos s.robot_dir hx hy)
      · -- move right
        rw [if_neg (by omega), if_pos rfl] at h
        obtain ⟨hfree, hnvis⟩ := Bool.and_eq_true_iff.1 hb
        have hfree' := of_decide_eq_true hfree
        have hfree2 : tileAtD s.bg
            (frontPos s.robot_pos s.robot_dir.right) = Tile.Free := by
          rw [frontPos_right]
          exact hfree'
        rw [robot_step_eval (robot_turn_right (robot_stack_push { s with visited := (setVisited s.visited (rightPos s.robot_pos s.robot_dir)) } s.robot_pos))
          hinv.good hx hy hxu hyu hfree2] at h
        obtain rfl : _ = s' := Option.some.inj h
        show AppInv { bg := s.bg, visited := setVisited s.visited (rightPos s.robot_pos s.robot_dir), robot_pos := frontPos s.robot_pos s.robot_dir.right, robot_dir := s.robot_dir.right, robot_stack := s.robot_stack ++ [s.robot_pos] }
        refine ⟨hinv.good, hfree2, ?_, ?_, ?_, ?_⟩
        · rw [frontPos_right]
          exact setVisited_self _ _
        · intro p hp
          rcases List.mem_append.1 hp with h1 | h1
          · exact hinv.stackFree p h1
          · obtain rfl : p = s.robot_pos := by simpa using h1
            exact hinv.posFree
        · intro p hp
          rcases List.mem_append.1 hp with h1 | h1
          · exact setVisited_mono _ _ _ (hinv.stackVisited p h1)
          · obtain rfl : p = s.robot_pos := by simpa using h1
            exact setVisited_mono _ _ _ hinv.posVisited
        · exact chain_append_adj hinv.pathChain
            (adjacent_frontPos s.robot_pos s.robot_dir.right hx hy)
      · -- move left
        rw [if_neg (by omega), if_neg (by omega), if_pos rfl] at h
        obtain ⟨hfree, hnvis⟩ := Bool.and_eq_true_iff.1 hb
        have hfree' := of_decide_eq_true hfree
        have hfree2 : tileAtD s.bg
            (frontPos s.robot_pos s.robot_dir.left) = Tile.Free := by
          rw [frontPos_left]
          exact hfree'
        rw [robot_step_eval (robot_turn_left (robot_stack_push { s with visited := (setVisited s.visited (leftPos s.robot_pos s.robot_dir)) } s.robot_pos))
          hinv.good hx hy hxu hyu hfree2] at h
        obtain rfl : _ = s' := Option.some.inj h
        show AppInv { bg := s.bg, visited := setVisited s.visited (leftPos s.robot_pos s.robot_dir), robot_pos := frontPos s.robot_pos s.robot_dir.left, robot_dir := s.robot_dir.left, robot_stack := s.robot_stack ++ [s.robot_pos] }
        refine ⟨hinv.good, hfree2, ?_, ?_, ?_, ?_⟩
        · rw [frontPos_left]
          exact setVisited_self _ _
        · intro p hp
          rcases List.mem_append.1 hp with h1 | h1
          · exact hinv.stackFree p h1
          · obtain rfl : p = s.robot_pos := by simpa using h1
            exact hinv.posFree
        · intro p hp
          rcases List.mem_append.1 hp with h1 | h1
          · exact setVisited_mono _ _ _ (hinv.stackVisited p h1)
          · obtain rfl : p = s.robot_pos := by simpa using h1
            exact setVisited_mono _ _ _ hinv.posVisited
        · exact chain_append_adj hinv.pathChain
            (adjacent_frontPos s.robot_pos s.robot_dir.left hx hy)
  · -- nothing eligible: backtrack or reinitialise
    rcases hpop : robot_stack_pop s with _ | pr
    · rw [hpop] at h
      obtain rfl : initState mz = s' := Option.some.inj h
      exact inv_initState mz hmz
    · obtain ⟨back, s1⟩ := pr
      rw [hpop] at h
      obtain ⟨hsplit, hbg, hvis, hpos, hdir, hstk⟩ := pop_spec s back s1 hpop
      have hbackmem : back ∈ s.robot_stack := by
        rw [hsplit]
        simp
      have hbackF := hinv.stackFree back hbackmem
      have hbackV := hinv.stackVisited back hbackmem
      have hadj : Adjacent back s.robot_pos := by
        have hchain := hinv.pathChain
        rw [hsplit] at hchain
        exact chain_last_adj hchain
      obtain ⟨k, hk3, hkfront⟩ :=
        rotate_cover s.robot_pos back s.robot_dir hadj hx hy
      have hrot := rotateUntil_eval 4 s1 back
        (by rw [hpos]; exact hx) (by rw [hpos]; exact hy)
        ⟨k, by omega, by rw [hpos, hdir]; exact hkfront⟩
      obtain ⟨d', hd', hfr⟩ := hrot
      have h2 : (rotateUntil 4 s1 back).bind robot_step = some s' := h
      rw [hd', Option.some_bind] at h2
      have hfr' : frontPos s.robot_pos d' = back := by
        rw [← hpos]
        exact hfr
      have hgood1 : GoodGrid s1.bg := by
        rw [hbg]
        exact hinv.good
      have hfree1 : tileAtD s1.bg
          (frontPos s1.robot_pos d') = Tile.Free := by
        rw [hbg, hpos, hfr']
        exact hbackF
      rw [robot_step_eval { s1 with robot_dir := d' } hgood1
        (by rw [hpos]; exact hx) (by rw [hpos]; exact hy)
        (by rw [hpos]; exact hxu) (by rw [hpos]; exact hyu) hfree1] at h2
      obtain rfl : _ = s' := Option.some.inj h2
      show AppInv { bg := s1.bg, visited := s1.visited, robot_pos := frontPos s1.robot_pos d', robot_dir := d', robot_stack := s1.robot_stack }
      refine ⟨hgood1, ?_, ?_, ?_, ?_, ?_⟩
      · rw [hbg, hfr]
        exact hbackF
      · rw [hvis, hfr]
        exact hbackV
      · intro p hp
        rw [hbg]
        refine hinv.stackFree p ?_
        rw [hsplit]
        exact List.mem_append_left _ hp
      · intro p hp
        rw [hvis]
        refine hinv.stackVisited p ?_
        rw [hsplit]
        exact List.mem_append_left _ hp
      · rw [hfr]
        have hchain := hinv.pathChain
        rw [hsplit] at hchain
        exact (List.chain'_append.1 hchain).1

theorem reachable_inv (s : AppState) (h : Reachable s) : AppInv s := by
  obtain ⟨s0, ⟨mz, hmz, rfl⟩, hsteps⟩ := h
  induction hsteps with
  | refl => exact inv_initState mz hmz
  | tail _ hstep ih =>
    obtain ⟨c, mz', hmz', htick⟩ := hstep
    exact on_tick_preserve _ ih c mz' hmz' _ htick

theorem freeFlags_eval (s : AppState) (hinv : AppInv s) :
    freeFlags s = some
      [decide (tileAtD s.bg (frontPos s.robot_pos s.robot_dir) = Tile.Free) &&
        !s.visited (frontPos s.robot_pos s.robot_dir),
       decide (tileAtD s.bg (rightPos s.robot_pos s.robot_dir) = Tile.Free) &&
        !s.visited (rightPos s.robot_pos s.robot_dir),
       decide (tileAtD s.bg (leftPos s.robot_pos s.robot_dir) = Tile.Free) &&
        !s.visited (leftPos s.robot_pos s.robot_dir)] := by
  obtain ⟨hx, hxu, hy, hyu⟩ := inv_interior hinv
  obtain ⟨l, hscan, hl1, hl3, hl5⟩ := robot_scan_eval s hinv.good hx hy hxu hyu
  rw [freeFlags, hscan, rpwo_front s hx hy, rpwo_left s hx hy,
    rpwo_right s hx hy]
  simp only [Option.some_bind, hl1, hl3, hl5, tileChar_dot]
  rfl

theorem on_tick_total (s : AppState) (hinv : AppInv s) (c : Nat)
    (mz : List (List Tile)) (hmz : MazeOK mz)
    (hc : ∀ fl, freeFlags s = some fl →
      fl.count true = 0 ∨ c < fl.count true) :
    (on_tick s c mz).isSome := by
  obtain ⟨hx, hxu, hy, hyu⟩ := inv_interior hinv
  obtain ⟨l, hscan, hl1, hl3, hl5⟩ := robot_scan_eval s hinv.good hx hy hxu hyu
  have hff := freeFlags_eval s hinv
  rw [on_tick, hscan, rpwo_front s hx hy, rpwo_left s hx hy,
    rpwo_right s hx hy]
  simp only [Option.some_bind, hl1, hl3, hl5, tileChar_dot]
  split
  · rename_i hcond
    have hcount := hc _ hff
    rcases hcount with h0 | hlt
    · exfalso
      rw [List.count_eq_zero] at h0
      simp only [List.mem_cons, List.not_mem_nil, or_false, not_or] at h0
      obtain ⟨hf0, hf1, hf2⟩ := h0
      rcases Bool.or_eq_true_iff.1 hcond with hor | h2
      · rcases Bool.or_eq_true_iff.1 hor with h0' | h1'
        · exact hf0 h0'.symm
        · exact hf1 h1'.symm
      · exact hf2 h2.symm
    · have hsel := select_idx_3_some _ _ _ c hlt
      obtain ⟨idx, hselx⟩ := Option.isSome_iff_exists.1 hsel
      rw [hselx, Option.some_bind]
      rcases select_idx_3_sound _ _ _ c idx hselx with ⟨rfl, hb⟩ | ⟨rfl, hb⟩ | ⟨rfl, hb⟩
      · rw [if_pos rfl]
        obtain ⟨hfree, _⟩ := Bool.and_eq_true_iff.1 hb
        have hfree' := of_decide_eq_true hfree
        rw [robot_step_eval (robot_stack_push { s with visited := (setVisited s.visited (frontPos s.robot_pos s.robot_dir)) } s.robot_pos)
          hinv.good hx hy hxu hyu hfree']
        rfl
      · rw [if_neg (by omega), if_pos rfl]
        obtain ⟨hfree, _⟩ := Bool.and_eq_true_iff.1 hb
        have hfree' := of_decide_eq_true hfree
        have hfree2 : tileAtD s.bg
            (frontPos s.robot_pos s.robot_dir.right) = Tile.Free := by
          rw [frontPos_right]
          exact hfree'
        rw [robot_step_eval (robot_turn_right (robot_stack_push { s with visited := (setVisited s.visited (rightPos s.robot_pos s.robot_dir)) } s.robot_pos))
          hinv.good hx hy hxu hyu hfree2]
        rfl
      · rw [if_neg (by omega), if_neg (by omega), if_pos rfl]
        obtain ⟨hfree, _⟩ := Bool.and_eq_true_iff.1 hb
        have hfree' := of_decide_eq_true hfree
        have hfree2 : tileAtD s.bg
            (frontPos s.robot_pos s.robot_dir.left) = Tile.Free := by
          rw [frontPos_left]
          exact hfree'
        rw [robot_step_eval (robot_turn_left (robot_stack_push { s with visited := (setVisited s.visited (leftPos s.robot_pos s.robot_dir)) } s.robot_pos))
          hinv.good hx hy hxu hyu hfree2]
        rfl
  · rcases hpop : robot_stack_pop s with _ | pr
    · rfl
    · obtain ⟨back, s1⟩ := pr
      obtain ⟨hsplit, hbg, hvis, hpos, hdir, hstk⟩ := pop_spec s back s1 hpop
      have hbackmem : back ∈ s.robot_stack := by
        rw [hsplit]
        simp
      have hbackF := hinv.stackFree back hbackmem
      have hadj : Adjacent back s.robot_pos := by
        have hchain := hinv.pathChain
        rw [hsplit] at hchain
        exact chain_last_adj hchain
      obtain ⟨k, hk3, hkfront⟩ :=
        rotate_cover s.robot_pos back s.robot_dir hadj hx hy
      obtain ⟨d', hd', hfr⟩ := rotateUntil_eval 4 s1 back
        (by rw [hpos]; exact hx) (by rw [hpos]; exact hy)
        ⟨k, by omega, by rw [hpos, hdir]; exact hkfront⟩
      show ((rotateUntil 4 s1 back).bind robot_step).isSome = true
      rw [hd', Option.some_bind]
      have hgood1 : GoodGrid s1.bg := by
        rw [hbg]
        exact hinv.good
      have hfree1 : tileAtD s1.bg (frontPos s1.robot_pos d') = Tile.Free := by
        rw [hbg, hpos] at *
        rw [hfr]
        exact hbackF
      rw [robot_step_eval { s1 with robot_dir := d' } hgood1
        (by rw [hpos]; exact hx) (by rw [hpos]; exact hy)
        (by rw [hpos]; exact hxu) (by rw [hpos]; exact hyu) hfree1]
      rfl

/-! ## Concrete generated maze used by witnesses -/

theorem option_eq_some_getD {α : Type} (o : Option α) (d : α) (h : o.isSome) :
    o = some (o.getD d) := by
  cases o with
  | none => simp at h
  | some a => rfl

/-- The identity shuffle of the unused-edge list for a 16 x 16 run. -/
def p2def : List Pos := (kruskalUnused 16 16 (edgeList 16 16)).getD []

/-- A concrete 16 x 16 maze: `Maze::kruskal(16, 16)` under identity
shuffles. -/
def mz16 : List (List Tile) := (kruskal 16 16 (edgeList 16 16) p2def).getD []

theorem p2def_perm : ∀ u, kruskalUnused 16 16 (edgeList 16 16) = some u →
    p2def.Perm u := by
  intro u hu
  show ((kruskalUnused 16 16 (edgeList 16 16)).getD []).Perm u
  rw [hu, Option.getD_some]

theorem mz16_some : kruskal 16 16 (edgeList 16 16) p2def = some mz16 := by
  apply option_eq_some_getD
  rw [kruskal_isSome_helper 16 16 (by omega) (by omega) _ p2def
    (List.Perm.refl _) p2def_perm]
  norm_num

theorem mz16_ok : MazeOK mz16 :=
  ⟨edgeList 16 16, p2def, List.Perm.refl _, p2def_perm, mz16_some⟩

theorem init16_reachable : Reachable (initState mz16) :=
  ⟨initState mz16, ⟨mz16, mz16_ok, rfl⟩, Relation.ReflTransGen.refl⟩

/-! ## Claims -/

/-- C1: for every `nx, ny ≥ 1`, whenever `Maze::kruskal(nx, ny)`
completes (over any shuffle `p1` of the edge list and any reopening list
`p2`), every cell is reachable from every other cell through Free tiles:
the opened edges form a spanning structure over all `nx * ny` cells. -/
theorem C1_kruskal_connected (nx ny : Nat) (hnx : 1 ≤ nx) (hny : 1 ≤ ny)
    (p1 p2 : List Pos) (hp1 : p1.Perm (edgeList nx ny))
    (m : List (List Tile)) (hm : kruskal nx ny p1 p2 = some m)
    (i j i' j' : Nat) (hi : i < nx) (hj : j < ny) (hi' : i' < nx)
    (hj' : j' < ny) :
    ReachFree m (cellPos i j) (cellPos i' j') :=
  kruskal_connected_helper nx ny hnx hny p1 p2 hp1 m hm i j i' j' hi hj hi' hj'

/-- Witness for C1 at the concrete run `nx = ny = 1` (no edges). -/
theorem C1_witness :
    kruskal 1 1 [] [] = some (mazeEmpty 1 1) ∧
      ReachFree (mazeEmpty 1 1) (cellPos 0 0) (cellPos 0 0) := by
  have hperm : ([] : List Pos).Perm (edgeList 1 1) := by
    have h : edgeList 1 1 = [] := by decide
    rw [h]
  have hk : kruskal 1 1 [] [] = some (mazeEmpty 1 1) := by decide
  exact ⟨hk, C1_kruskal_connected 1 1 (by decide) (by decide) [] [] hperm
    (mazeEmpty 1 1) hk 0 0 0 0 (by decide) (by decide) (by decide) (by decide)⟩

/-- C2 counterexample: for `nx = 2, ny = 1` (both `≥ 1`) the only edge
shuffle is `[(2,1)]`, the spanning phase uses that edge, the unused-edge
list is empty, and the loop-reopening phase asks for the first
`⌊2·1/2⌋ = 1` elements of an empty list: the slice `&unused_edges[..1]`
panics, so `Maze::kruskal(2, 1)` aborts (`none`). -/
theorem C2_counterexample :
    ([⟨2, 1⟩] : List Pos).Perm (edgeList 2 1) ∧
      kruskalUnused 2 1 [⟨2, 1⟩] = some [] ∧
      kruskal 2 1 [⟨2, 1⟩] [] = none := by
  refine ⟨?_, by decide, by decide⟩
  have h : edgeList 2 1 = [⟨2, 1⟩] := by decide
  rw [h]

/-- C2 (amended): for `nx, ny ≥ 1`, `Maze::kruskal(nx, ny)` completes
without failure if and only if `⌊nx·ny/2⌋ ≤ (nx−1)·(ny−1)`; otherwise the
loop-reopening phase panics slicing the unused-edge list (which always
has exactly `(nx−1)·(ny−1)` entries) past its end. -/
theorem C2_kruskal_completes_iff (nx ny : Nat) (hnx : 1 ≤ nx) (hny : 1 ≤ ny)
    (p1 p2 : List Pos) (hp1 : p1.Perm (edgeList nx ny))
    (hp2 : ∀ u, kruskalUnused nx ny p1 = some u → p2.Perm u) :
    (kruskal nx ny p1 p2).isSome ↔ nx * ny / 2 ≤ (nx - 1) * (ny - 1) :=
  kruskal_isSome_helper nx ny hnx hny p1 p2 hp1 hp2

/-- Witness for C2 at the concrete run `nx = ny = 1`. -/
theorem C2_witness :
    ((kruskal 1 1 [] []).isSome ↔ 1 * 1 / 2 ≤ (1 - 1) * (1 - 1)) ∧
      (kruskal 1 1 [] []).isSome := by
  have hperm : ([] : List Pos).Perm (edgeList 1 1) := by
    have h : edgeList 1 1 = [] := by decide
    rw [h]
  refine ⟨C2_kruskal_completes_iff 1 1 (by decide) (by decide) [] [] hperm ?_,
    by decide⟩
  intro u hu
  have h0 : kruskalUnused 1 1 [] = some [] := by decide
  rw [h0] at hu
  obtain rfl : [] = u := Option.some.inj hu
  exact List.Perm.refl []

/-- C3 counterexample: at `nx = ny = 3` with identity shuffles the
generation completes and sets 12 interior edge slots Free
(`8` in the spanning phase plus `⌊9/2⌋ = 4` reopened), but the claimed
formula gives `(3·3−1) + ⌊(12 − (3·3−1))/2⌋ = 10 ≠ 12`. -/
theorem C3_counterexample :
    ((kruskal 3 3 (edgeList 3 3)
        ((kruskalUnused 3 3 (edgeList 3 3)).getD [])).map
      (fun m => countFreeEdges 3 3 m)) = some 12 ∧
      (3 * 3 - 1) + ((3 * 2 + 3 * 2) - (3 * 3 - 1)) / 2 = 10 := by
  exact ⟨by decide, by decide⟩

/-- C3 (amended): whenever generation completes, the number of interior
edge slots set Free equals `(nx·ny − 1) + ⌊nx·ny/2⌋`: the spanning phase
opens exactly `nx·ny − 1` edges and the reopening phase opens exactly
`⌊nx·ny/2⌋` more (not half of the unused count). -/
theorem C3_kruskal_free_count (nx ny : Nat) (hnx : 1 ≤ nx) (hny : 1 ≤ ny)
    (p1 p2 : List Pos) (hp1 : p1.Perm (edgeList nx ny))
    (hp2 : ∀ u, kruskalUnused nx ny p1 = some u → p2.Perm u)
    (m : List (List Tile)) (hm : kruskal nx ny p1 p2 = some m) :
    countFreeEdges nx ny m = (nx * ny - 1) + nx * ny / 2 :=
  kruskal_count_helper nx ny hnx hny p1 p2 hp1 hp2 m hm

/-- Witness for C3 at the concrete run `nx = ny = 1`. -/
theorem C3_witness :
    kruskal 1 1 [] [] = some (mazeEmpty 1 1) ∧
      countFreeEdges 1 1 (mazeEmpty 1 1) = (1 * 1 - 1) + 1 * 1 / 2 := by
  have hperm : ([] : List Pos).Perm (edgeList 1 1) := by
    have h : edgeList 1 1 = [] := by decide
    rw [h]
  have hk : kruskal 1 1 [] [] = some (mazeEmpty 1 1) := by decide
  refine ⟨hk, C3_kruskal_free_count 1 1 (by decide) (by decide) [] [] hperm ?_
    (mazeEmpty 1 1) hk⟩
  intro u hu
  have h0 : kruskalUnused 1 1 [] = some [] := by decide
  rw [h0] at hu
  obtain rfl : [] = u := Option.some.inj hu
  exact List.Perm.refl []

/-- C4 counterexample: the claim places cells at even-even coordinates
`(2i, 2j)` holding Free, but in `Maze::empty(1, 1)` the even-even slot
`(0, 0)` (with `i = j = 0 < 1`) holds Wall. -/
theorem C4_counterexample :
    tileAtD (mazeEmpty 1 1) ⟨2 * 0, 2 * 0⟩ = Tile.Wall ∧
      tileAtD (mazeEmpty 1 1) ⟨2 * 0, 2 * 0⟩ ≠ Tile.Free := by
  exact ⟨by decide, by decide⟩

/-- C4 (amended): in the grid of `Maze::empty(nx, ny)` the cells occupy
the odd-odd coordinates `(2i+1, 2j+1)` for `i < nx`, `j < ny` and hold
Free, while every slot with at least one even coordinate — every edge
slot between two cells and the whole outer border ring — holds Wall; the
grid has `2·ny+1` rows of `2·nx+1` tiles. -/
theorem C4_empty_grid (nx ny : Nat) :
    (mazeEmpty nx ny).length = 2 * ny + 1 ∧
      (∀ row ∈ mazeEmpty nx ny, row.length = 2 * nx + 1) ∧
      (∀ i j, i < nx → j < ny →
        tileAtD (mazeEmpty nx ny) ⟨2 * i + 1, 2 * j + 1⟩ = Tile.Free) ∧
      (∀ p : Pos, p.x % 2 = 0 ∨ p.y % 2 = 0 →
        tileAtD (mazeEmpty nx ny) p = Tile.Wall) := by
  refine ⟨mazeEmpty_length nx ny, mazeEmpty_rowlen nx ny, ?_, ?_⟩
  · intro i j hi hj
    rw [mazeEmpty_tileAtD]
    rw [if_pos (by simp only []; omega)]
  · intro p hp
    rw [mazeEmpty_tileAtD]
    rw [if_neg (by omega)]

/-- Witness for C4 at `nx = ny = 1`: the single cell `(1, 1)` is Free and
the edge-slot/border coordinate `(0, 1)` is Wall. -/
theorem C4_witness :
    tileAtD (mazeEmpty 1 1) ⟨2 * 0 + 1, 2 * 0 + 1⟩ = Tile.Free ∧
      tileAtD (mazeEmpty 1 1) ⟨0, 1⟩ = Tile.Wall :=
  ⟨(C4_empty_grid 1 1).2.2.1 0 0 (by decide) (by decide),
   (C4_empty_grid 1 1).2.2.2 ⟨0, 1⟩ (by decide)⟩

/-- C5 counterexample: the union history `union(0,1); union(1,0)` on
`new(2)` is accepted by the Rust code (each `join` succeeds) and leaves
state `[1, 0]`, in which `0` and `1` are connected by the history, yet
`sameSet(0, 1)` does not return `true`: the `rep` pointer chase loops
forever on the cycle `0 ↦ 1 ↦ 0` (modelled as `none`), so the claimed
equivalence fails — the call diverges instead of answering. -/
theorem C5_counterexample :
    runJoins (UnionFind.new 2) [(0, 1), (1, 0)] = some [1, 0] ∧
      Conn [(0, 1), (1, 0)] 0 1 ∧
      UnionFind.in_same_set [1, 0] 0 1 = none := by
  exact ⟨by decide, Conn.rel (by simp), by decide⟩

/-- C5 (amended): for union histories of the shape the generator actually
produces — each `union(a, b)` with `a, b` in range and `a, b` not yet in
the same set — `sameSet(a, b)` returns `true` iff `a` and `b` are
connected by the history, for all `a, b < n`.  (Unguarded histories can
make `rep` diverge, as the counterexample shows.) -/
theorem C5_sameSet_iff_connected (n : Nat) (l : List (Nat × Nat))
    (reps' : List Nat) (h : UnionFind.ValidSeq (UnionFind.new n) l reps')
    (a b : Nat) (ha : a < n) (hb : b < n) :
    UnionFind.in_same_set reps' a b = some true ↔ Conn l a b :=
  UnionFind.in_same_set_iff_conn h ha hb

/-- Witness for C5 on the concrete run `new(2); union(0, 1)`. -/
theorem C5_witness :
    UnionFind.in_same_set [0, 0] 0 1 = some true ∧ Conn [(0, 1)] 0 1 := by
  have hv : UnionFind.ValidSeq (UnionFind.new 2) [(0, 1)] [0, 0] :=
    UnionFind.ValidSeq.cons (by decide) (by decide) (by decide) (by decide)
      (UnionFind.ValidSeq.nil [0, 0])
  have hc : Conn [(0, 1)] 0 1 := Conn.rel (by simp)
  exact ⟨(C5_sameSet_iff_connected 2 [(0, 1)] [0, 0] hv 0 1 (by decide)
    (by decide)).mpr hc, hc⟩

/-- C6: in every reachable walker state, a tick with a valid random draw
(the drawn index is below the number of eligible moves whenever some move
is eligible, as `random_range(0..ntrue)` guarantees) completes without
any panic — in particular `robot_step` is only ever invoked with a Free
tile directly ahead, so its fatal wall-collision branch is unreachable. -/
theorem C6_no_wall_collision (s : AppState) (hs : Reachable s) (c : Nat)
    (mz : List (List Tile)) (hmz : MazeOK mz)
    (hc : ∀ fl, freeFlags s = some fl →
      fl.count true = 0 ∨ c < fl.count true) :
    (on_tick s c mz).isSome :=
  on_tick_total s (reachable_inv s hs) c mz hmz hc

/-- Witness for C6: one tick from the initial state on a concrete
generated maze. -/
theorem C6_witness :
    Reachable (initState mz16) ∧ MazeOK mz16 ∧
      (on_tick (initState mz16) 0 mz16).isSome :=
  ⟨init16_reachable, mz16_ok,
    C6_no_wall_collision (initState mz16) init16_reachable 0 mz16 mz16_ok
      (fun fl _ => by omega)⟩

/-- C7: `right(left(d)) = d`, `left(right(d)) = d` and `right⁴ = id` for
all four directions, and reorienting a North-carried relative offset to
North returns it unchanged. -/
theorem C7_rotation_algebra :
    (∀ d : Direction,
      d.left.right = d ∧ d.right.left = d ∧ d.right.right.right.right = d) ∧
      (∀ x y : Int,
        RelPos.reorient ⟨x, y, Direction.N⟩ Direction.N =
          ⟨x, y, Direction.N⟩) := by
  constructor
  · intro d
    cases d <;> exact ⟨rfl, rfl, rfl⟩
  · intro x y
    rfl

/-- C8: `RelPos::reorient` is total: for every relative offset and every
target direction the loop finishes after at most 3 applications of the
single-step rule, which is exactly `(x, y, d) ↦ (y, -x, right d)`, and
the result carries the target direction. -/
theorem C8_reorient_total :
    (∀ r : RelPos, r.reorient_right = ⟨r.y, -r.x, r.dir.right⟩) ∧
      (∀ (r : RelPos) (nd : Direction), ∃ k, k ≤ 3 ∧
        r.reorient nd = RelPos.reorient_right^[k] r ∧
        (RelPos.reorient_right^[k] r).dir = nd) := by
  refine ⟨fun r => rfl, ?_⟩
  intro r nd
  obtain ⟨x, y, d⟩ := r
  cases d <;> cases nd <;>
    first
    | exact ⟨0, by omega, rfl, rfl⟩
    | exact ⟨1, by omega, rfl, rfl⟩
    | exact ⟨2, by omega, rfl, rfl⟩
    | exact ⟨3, by omega, rfl, rfl⟩

/-- C9 counterexample: with the robot at `(0, 0)` on a perfectly
well-formed grid, the very first sensing read (offset `(-1, -1)`) gets no
coordinate from `Pos + RelPos` and the scan `unwrap`s that absence: the
routine crashes (`none`) instead of treating the tile as blocked. -/
theorem C9_counterexample :
    robot_scan { bg := mazeEmpty 16 16, visited := fun _ => false, robot_pos := ⟨0, 0⟩, robot_dir := Direction.N, robot_stack := [] } = none := by
  rfl

/-- C9 (amended): the sensing routine does rely on the border wall ring:
it `unwrap`s every offset lookup and so panics when a coordinate
underflows (robot on row or column 0, see the counterexample), but for
every robot position inside the ring of a well-formed grid all nine reads
succeed. -/
theorem C9_scan_total (s : AppState) (hg : GoodGrid s.bg)
    (hx : 1 ≤ s.robot_pos.x) (hy : 1 ≤ s.robot_pos.y)
    (hxu : s.robot_pos.x ≤ 31) (hyu : s.robot_pos.y ≤ 31) :
    (robot_scan s).isSome := by
  obtain ⟨l, hl, -, -, -⟩ := robot_scan_eval s hg hx hy hxu hyu
  rw [hl]
  rfl

/-- Witness for C9 in the initial state on a concrete generated maze. -/
theorem C9_witness : (robot_scan (initState mz16)).isSome := by
  have h : (initState mz16).robot_pos = ⟨1, 1⟩ := rfl
  have hg : GoodGrid (initState mz16).bg := (inv_initState mz16 mz16_ok).good
  refine C9_scan_total (initState mz16) hg ?_ ?_ ?_ ?_ <;> rw [h] <;> decide

/-- C10: in every reachable walker state the backtrack stack extended by
the current position is a path of orthogonally adjacent grid positions,
every stacked position is a Free visited tile, and whatever
`robot_stack_pop` returns is adjacent to the current position and faced
after at most 3 right turns. -/
theorem C10_backtrack_invariant (s : AppState) (hs : Reachable s) :
    List.Chain' Adjacent (s.robot_stack ++ [s.robot_pos]) ∧
      (∀ p ∈ s.robot_stack,
        tileAtD s.bg p = Tile.Free ∧ s.visited p = true) ∧
      (∀ back s1, robot_stack_pop s = some (back, s1) →
        Adjacent back s.robot_pos ∧ ∃ k, k ≤ 3 ∧
          frontPos s.robot_pos (Direction.right^[k] s.robot_dir) = back) := by
  have hinv := reachable_inv s hs
  refine ⟨hinv.pathChain,
    fun p hp => ⟨hinv.stackFree p hp, hinv.stackVisited p hp⟩, ?_⟩
  intro back s1 hpop
  obtain ⟨hsplit, -, -, -, -, -⟩ := pop_spec s back s1 hpop
  have hchain := hinv.pathChain
  rw [hsplit, List.append_assoc] at hchain
  rw [← List.append_assoc] at hchain
  have hadj : Adjacent back s.robot_pos := chain_last_adj hchain
  obtain ⟨hx, -, hy, -⟩ := inv_interior hinv
  exact ⟨hadj, rotate_cover s.robot_pos back s.robot_dir hadj hx hy⟩

/-- Witness for C10 in the initial state on a concrete generated maze. -/
theorem C10_witness :
    List.Chain' Adjacent
      ((initState mz16).robot_stack ++ [(initState mz16).robot_pos]) :=
  (C10_backtrack_invariant (initState mz16) init16_reachable).1
